import Mathlib

/-!
# zkmutex: command execution under a distributed lock

A shallow embedding of `main.go` of `github.com/mjolnir42/zkmutex` and the
properties of its specification that can be settled on it.

The program's `run` derives a fingerprint of the command line, ensures a fixed
hierarchy of ZooKeeper nodes for it, waits for the leader election and, as
leader, runs the command and records the run in two nodes with conditional
writes.  What the program cannot decide itself (the outcome of a request to the
service, of the election, of the child process, of a user lookup, the clock,
what other clients do to the store in between) is a field of `Env`; the model
is a total function of that environment and of the initial store.
-/

namespace ZkMutex

/-! ## Go strings, byte slices, hex -/

/-- UTF-8 bytes of one code point: what a Go string stores for the character. -/
def utf8 (c : Char) : List Nat :=
  let n := c.toNat
  if n < 0x80 then [n]
  else if n < 0x800 then [0xC0 + n / 64, 0x80 + n % 64]
  else if n < 0x10000 then [0xE0 + n / 4096, 0x80 + n / 64 % 64, 0x80 + n % 64]
  else [0xF0 + n / 262144, 0x80 + n / 4096 % 64, 0x80 + n / 64 % 64, 0x80 + n % 64]

/-- The conversion `[]byte(s)`. -/
def bytes (s : String) : List Nat := s.data.flatMap utf8

/-- The digit table of `encoding/hex`. -/
def hextable : List Char := "0123456789abcdef".data

/-- One byte as two lower-case hex digits: `hextable[v>>4]`, `hextable[v&0x0f]`. -/
def hexByte (v : Nat) : List Char :=
  [hextable.getD (v % 256 / 16) '0', hextable.getD (v % 16) '0']

/-- The function `hex.EncodeToString`. -/
def hexEncode (src : List Nat) : String := String.mk (src.flatMap hexByte)

/-! ## BLAKE2b-512 (RFC 7693), the hash behind `blake2b.New512()` -/

namespace Blake2b

/-- Words are 64 bits wide. -/
def mask64 : Nat := 2 ^ 64

/-- Initialisation vector. -/
def IV : List Nat :=
  [0x6a09e667f3bcc908, 0xbb67ae8584caa73b, 0x3c6ef372fe94f82b, 0xa54ff53a5f1d36f1,
   0x510e527fade682d1, 0x9b05688c2b3e6c1f, 0x1f83d9abfb41bd6b, 0x5be0cd19137e2179]

/-- Message word schedule. -/
def SIGMA : List (List Nat) :=
  [[0, 1, 2, 3, 4, 5, 6, 7, 8, 9, 10, 11, 12, 13, 14, 15],
   [14, 10, 4, 8, 9, 15, 13, 6, 1, 12, 0, 2, 11, 7, 5, 3],
   [11, 8, 12, 0, 5, 2, 15, 13, 10, 14, 3, 6, 7, 1, 9, 4],
   [7, 9, 3, 1, 13, 12, 11, 14, 2, 6, 5, 10, 4, 0, 15, 8],
   [9, 0, 5, 7, 2, 4, 10, 15, 14, 1, 11, 12, 6, 8, 3, 13],
   [2, 12, 6, 10, 0, 11, 8, 3, 4, 13, 7, 5, 15, 14, 1, 9],
   [12, 5, 1, 15, 14, 13, 4, 10, 0, 7, 6, 3, 9, 2, 8, 11],
   [13, 11, 7, 14, 12, 1, 3, 9, 5, 0, 15, 4, 8, 6, 2, 10],
   [6, 15, 14, 9, 11, 3, 0, 8, 12, 2, 13, 7, 1, 4, 10, 5],
   [10, 2, 8, 4, 7, 6, 1, 5, 15, 11, 9, 14, 3, 12, 13, 0]]

/-- Rotation of a 64-bit word to the right. -/
def rotr (x n : Nat) : Nat := ((x >>> n) ||| (x <<< (64 - n))) % mask64

/-- The mixing function G on the work vector. -/
def G (v : List Nat) (a b c d x y : Nat) : List Nat :=
  let va := (v.getD a 0 + v.getD b 0 + x) % mask64
  let vd := rotr (v.getD d 0 ^^^ va) 32
  let vc := (v.getD c 0 + vd) % mask64
  let vb := rotr (v.getD b 0 ^^^ vc) 24
  let va := (va + vb + y) % mask64
  let vd := rotr (vd ^^^ va) 16
  let vc := (vc + vd) % mask64
  let vb := rotr (vb ^^^ vc) 63
  (((v.set a va).set b vb).set c vc).set d vd

/-- One of the twelve rounds. -/
def round (m : List Nat) (v : List Nat) (i : Nat) : List Nat :=
  let s := SIGMA.getD (i % 10) []
  let w := fun k => m.getD (s.getD k 0) 0
  let v := G v 0 4 8 12 (w 0) (w 1)
  let v := G v 1 5 9 13 (w 2) (w 3)
  let v := G v 2 6 10 14 (w 4) (w 5)
  let v := G v 3 7 11 15 (w 6) (w 7)
  let v := G v 0 5 10 15 (w 8) (w 9)
  let v := G v 1 6 11 12 (w 10) (w 11)
  let v := G v 2 7 8 13 (w 12) (w 13)
  G v 3 4 9 14 (w 14) (w 15)

/-- Little-endian word of up to eight bytes. -/
def leWord (bs : List Nat) : Nat :=
  bs.foldr (fun b acc => b % 256 + 256 * acc) 0

/-- The sixteen message words of a 128-byte block. -/
def words (block : List Nat) : List Nat :=
  (List.range 16).map fun i => leWord ((block.drop (8 * i)).take 8)

/-- The compression function F: chaining value, block, byte counter, final flag. -/
def F (h : List Nat) (block : List Nat) (t : Nat) (final : Bool) : List Nat :=
  let m := words block
  let v := h ++ IV
  let v := v.set 12 (v.getD 12 0 ^^^ (t % mask64))
  let v := v.set 13 (v.getD 13 0 ^^^ ((t / mask64) % mask64))
  let v := if final then v.set 14 (v.getD 14 0 ^^^ (mask64 - 1)) else v
  let v := (List.range 12).foldl (round m) v
  (List.range 8).map fun i => h.getD i 0 ^^^ v.getD i 0 ^^^ v.getD (i + 8) 0

/-- Initial chaining value for a 64-byte digest without key. -/
def h0 : List Nat := IV.set 0 (IV.getD 0 0 ^^^ 0x01010040)

/-- Compress the data block by block; the last block (at most 128 bytes, padded
with zeros) is compressed with the final flag.  `fuel` bounds the number of
blocks. -/
def absorb : Nat → List Nat → Nat → List Nat → List Nat
  | 0, h, _, _ => h
  | fuel + 1, h, t, d =>
    if d.length ≤ 128 then
      F h (d ++ List.replicate (128 - d.length) 0) (t + d.length) true
    else
      absorb fuel (F h (d.take 128) (t + 128) false) (t + 128) (d.drop 128)

/-- The eight bytes of a word, little-endian. -/
def leBytes (w : Nat) : List Nat := (List.range 8).map fun i => (w >>> (8 * i)) % 256

/-- BLAKE2b-512 of a byte string: 64 bytes. -/
def sum512 (d : List Nat) : List Nat :=
  (absorb (d.length / 128 + 1) h0 0 d).flatMap leBytes

end Blake2b

/-- The running hash of Go's `hash.Hash`: the state is the data written so far. -/
structure Digest where
  /-- All bytes written, in order. -/
  absorbed : List Nat

/-- The constructor `blake2b.New512()`. -/
def New512 : Digest := ⟨[]⟩

/-- The method `Write`: adds more data to the running hash. -/
def Digest.Write (d : Digest) (p : List Nat) : Digest := ⟨d.absorbed ++ p⟩

/-- The method `Sum(b)`: appends the hash of the data written so far to `b`. -/
def Digest.Sum (d : Digest) (b : List Nat) : List Nat := b ++ Blake2b.sum512 d.absorbed

/-- Lines 112-116 of `run`: every token of the command is written to the hasher
in list order, the digest is hex encoded. -/
def cmdHash (command : List String) : String :=
  let blake := command.foldl (fun blake tok => blake.Write (bytes tok)) New512
  hexEncode (blake.Sum [])

/-! ## Paths: `filepath.Join` and `filepath.Clean` (Unix) -/

/-- The elements of a path: the pieces between its separators. -/
def splitSlash : List Char → List (List Char)
  | [] => [[]]
  | c :: cs =>
    if c = '/' then [] :: splitSlash cs
    else
      match splitSlash cs with
      | [] => [[c]]
      | e :: es => (c :: e) :: es

/-- The function `strings.Join(elems, "/")` on character lists. -/
def joinSlash : List (List Char) → List Char
  | [] => []
  | [e] => e
  | e :: es => e ++ '/' :: joinSlash es

/-- One path element read by `Clean`, `out` being the elements kept so far: an
empty element and `.` are dropped, `..` removes the element before it (it is
kept at the start of a relative path and dropped at the root), any other
element is kept. -/
def cleanElem (rooted : Bool) (out : List (List Char)) (e : List Char) : List (List Char) :=
  if e = [] ∨ e = ['.'] then out
  else if e = ['.', '.'] then
    match out.getLast? with
    | some t => if t = ['.', '.'] then out ++ [e] else out.dropLast
    | none => if rooted then out else out ++ [e]
  else out ++ [e]

/-- The function `filepath.Clean`: the shortest path name equivalent to `path`
by purely lexical processing; the empty path becomes `.`. -/
def Clean (path : List Char) : List Char :=
  if path = [] then ['.']
  else
    let rooted := path.head? = some '/'
    let out := (splitSlash path).foldl (cleanElem rooted) []
    if rooted then '/' :: joinSlash out
    else if out = [] then ['.']
    else joinSlash out

/-- The function `filepath.Join`: leading empty elements are ignored, the rest
is joined with the separator and cleaned; all elements empty gives the empty
string. -/
def Join (elem : List String) : String :=
  match (elem.map String.data).dropWhile (fun e => e = []) with
  | [] => ""
  | es => String.mk (Clean (joinSlash es))

/-! ## The command line -/

/-- The slice expression `a[lo:]`; `none` is the run-time panic for `lo > len(a)`. -/
def sliceFrom (a : List String) (lo : Nat) : Option (List String) :=
  if lo ≤ a.length then some (a.drop lo) else none

/-- Lines 101-106 of `run`, the loop `for i := range os.Args` at index `i` with
`n` iterations to go: the first argument equal to `--` ends the loop with
`command = os.Args[i+1:]`; `none` is a run-time panic.  The package variable
`command` is nil before the loop. -/
def scanArgs (args : List String) : Nat → Nat → Option (List String)
  | _, 0 => some []
  | i, n + 1 =>
    match args[i]? with
    | none => none
    | some a => if a = "--" then sliceFrom args (i + 1) else scanArgs args (i + 1) n

/-- The value of `command` after the loop over `os.Args`. -/
def getCommand (args : List String) : Option (List String) :=
  scanArgs args 0 args.length

/-! ## The coordination service -/

/-- A node of the service: its value and its version counter. -/
structure Node where
  /-- The value. -/
  data : String
  /-- The version, advanced by the service on every write. -/
  version : Nat
deriving DecidableEq, Repr

/-- The nodes of the service by path. -/
abbrev Store := String → Option Node

/-- Why a request to the service failed. -/
inductive ZkErr
  | noNode
  | badVersion
  | connectionLoss
deriving DecidableEq, Repr

/-- The store with `path` holding `n`. -/
def Store.put (s : Store) (path : String) (n : Node) : Store :=
  fun p => if p = path then some n else s p

/-- The store after `path` was ensured: a missing node is created empty at
version 0, an existing node is left as it is. -/
def Store.ensure (s : Store) (path : String) : Store :=
  match s path with
  | some _ => s
  | none => s.put path ⟨"", 0⟩

/-- The request `conn.Get(path)`: value and version of the node; `up` says
whether the request reaches the service. -/
def zkGet (s : Store) (up : Bool) (path : String) : Except ZkErr Node :=
  if up then
    match s path with
    | some n => .ok n
    | none => .error .noNode
  else .error .connectionLoss

/-- The request `conn.Set(path, data, version)`: the write is accepted only if
`version` is the node's current version (or -1, which matches any); an accepted
write stores the value and advances the version by one, a rejected one leaves
the node as it is.  The result is the new version. -/
def zkSet (s : Store) (up : Bool) (path data : String) (version : Int) :
    Except ZkErr Nat × Store :=
  if up then
    match s path with
    | some n =>
      if version = -1 ∨ version = (n.version : Int) then
        (.ok (n.version + 1), s.put path ⟨data, n.version + 1⟩)
      else (.error .badVersion, s)
    | none => (.error .noNode, s)
  else (.error .connectionLoss, s)

/-! ## The environment of one run -/

/-- How `cmd.Run()` ended: the child exited with a status, or it was never
started.  The returned error is nil exactly for `exited 0`. -/
inductive RunResult
  | exited (status : Nat)
  | notStarted
deriving DecidableEq, Repr

/-- Everything `run` takes from outside.  The model covers the executions in
which configuration and log setup passed, `connect` returned, the election
signalled and the child process ended. -/
structure Env where
  /-- The process arguments `os.Args`. -/
  args : List String
  /-- The configured `conf.SyncGroup`. -/
  syncGroup : String
  /-- The configured `conf.User`; empty for none. -/
  user : String
  /-- The chroot returned by `connect`. -/
  chroot : String
  /-- Whether ensuring a path (`zkHier`, `zkCreatePath`) reports success. -/
  ensureOK : String → Bool
  /-- Which channel of `zkLeaderLock` fires: `leaderChan` (true) or `errChan`. -/
  electionWon : Bool
  /-- The lookup `user.Lookup`: the fields `Uid` and `Gid` of a known user. -/
  lookup : String → Option (String × String)
  /-- How the child process for an argument vector and credential ends. -/
  cmdRun : List String → Option (Nat × Nat) → RunResult
  /-- The clock: `time.Now().UTC().Format(time.RFC3339Nano)`. -/
  now : String
  /-- The result of `os.Hostname()`; `none` is an error. -/
  hostname : Option String
  /-- Whether the leader's i-th request (0 `Get last`, 1 `Set last`,
  2 `Get command`, 3 `Set command`) reaches the service. -/
  reachable : Nat → Bool
  /-- What other clients do to the store right before the leader's i-th request. -/
  others : Nat → Store → Store

/-- What the run did, in order. -/
inductive Event
  | connect
  | ensure (path : String) (ok : Bool)
  | election (won : Bool)
  | exec (argv : List String) (cred : Option (Nat × Nat)) (res : RunResult)
  | get (path : String) (res : Option Node)
  | set (path : String) (data : String) (version : Int) (res : Option Nat)
deriving DecidableEq, Repr

/-- The state threaded through the run: the service's store and the events so far. -/
structure World where
  /-- The nodes of the service. -/
  store : Store
  /-- The events so far, oldest first. -/
  trace : List Event

/-- The package variables `command`, `lastNode`, `commandNode`, `runLock`. -/
structure Globals where
  /-- The command to run. -/
  command : List String
  /-- Path of the node holding time and host of the last run. -/
  lastNode : String
  /-- Path of the node holding the unhashed command. -/
  commandNode : String
  /-- Path of the contention node of the election. -/
  runLock : String
deriving DecidableEq, Repr

/-- The errors `leader` sends on `block`. -/
inductive Err
  | lookup
  | atoi
  | run (res : RunResult)
  | hostname
  | zk (e : ZkErr)
deriving DecidableEq, Repr

/-- What `run` receives from `block`: the channel was closed (a nil error), an
error was sent, or the goroutine panicked. -/
inductive Signal
  | closed
  | sent (e : Err)
  | panicked
deriving DecidableEq, Repr

/-- Modelled from the spec: `connect` is not in the sources; it opens the
session with the service and returns the connection and the configured chroot
prefix (section 6). -/
def connect (env : Env) (s : Store) : World × String :=
  (⟨s, [.connect]⟩, env.chroot)

/-- Modelled from the spec: `zkLeaderLock` is not in the sources; the election
is signalled on two one-shot channels, won and failed, exactly one of which
fires (section 4.3).  The result is true for the leader channel. -/
def zkLeaderLock (env : Env) : Bool := env.electionWon

/-- Modelled from the spec: `zkCreatePath` (section 4.2, `ensurePath`) is not in
the sources; it reports success or failure, an existing node is not an error,
and a missing node is created on success. -/
def zkCreatePath (env : Env) (w : World) (path : String) : Bool × World :=
  if env.ensureOK path then (true, ⟨w.store.ensure path, w.trace ++ [.ensure path true]⟩)
  else (false, ⟨w.store, w.trace ++ [.ensure path false]⟩)

/-- The proper ancestors of a path, top-down: what stands before each separator
after the first character. -/
def ancestors (path : String) : List String :=
  ((List.range path.data.length).filter fun i => 0 < i ∧ path.data[i]? = some '/').map
    fun i => String.mk (path.data.take i)

/-- Modelled from the spec: `zkHier` (section 4.2) is not in the sources; it
ensures a path like `zkCreatePath` and creates missing ancestor segments before
the descendant. -/
def zkHier (env : Env) (w : World) (path : String) : Bool × World :=
  if env.ensureOK path then
    (true, ⟨((ancestors path).foldl Store.ensure w.store).ensure path,
      w.trace ++ [.ensure path true]⟩)
  else (false, ⟨w.store, w.trace ++ [.ensure path false]⟩)

/-- Modelled from the spec: `sendError` is not in the sources; all failures are
delivered through the same single-fire failure channel (section 4.4): for an
error that is not nil it sends the error on `block` and returns true, and
every call site returns then; for nil it sends nothing.  The model takes the
result of the call before it, the state, and the rest of the function. -/
def sendError {α : Type} (r : Except Err α) (w : World) (rest : α → Signal × World) :
    Signal × World :=
  match r with
  | .error e => (.sent e, w)
  | .ok v => rest v

/-- Modelled from the spec: `errorOK` is not in the sources; the orchestrator
logs what it received from the channel and maps a failure to exit status 1
(section 7): true exactly when an error was received. -/
def errorOK (received : Option Err) : Bool := received.isSome

/-! ## The leader -/

/-- The decimal digits of a number; `none` for no digit or another character. -/
def digitsVal : List Char → Option Nat
  | [] => none
  | ds => ds.foldl
      (fun acc c => acc.bind fun a => if c.isDigit then some (10 * a + (c.toNat - 48)) else none)
      (some 0)

/-- The function `strconv.Atoi`: an optional sign, then decimal digits; `none`
for a syntax error or a value outside the 64-bit `int`. -/
def Atoi (s : String) : Option Int :=
  let signed : Bool × List Char :=
    match s.data with
    | '-' :: r => (true, r)
    | '+' :: r => (false, r)
    | r => (false, r)
  match digitsVal signed.2 with
  | none => none
  | some n =>
    let v : Int := if signed.1 then -(n : Int) else (n : Int)
    if -(2 : Int) ^ 63 ≤ v ∧ v < (2 : Int) ^ 63 then some v else none

/-- The conversion `uint32(x)` of an `int`. -/
def toUint32 (x : Int) : Nat := (x % (2 : Int) ^ 32).toNat

/-- Lines 163-183 of `leader`: the credential of the child process, none when
no user is configured; an unknown user or an id that is not a number is an
error. -/
def credential (env : Env) : Except Err (Option (Nat × Nat)) :=
  if env.user ≠ "" then
    match env.lookup env.user with
    | none => .error .lookup
    | some (uidText, gidText) =>
      match Atoi uidText with
      | none => .error .atoi
      | some uid =>
        match Atoi gidText with
        | none => .error .atoi
        | some gid => .ok (some (toUint32 uid, toUint32 gid))
  else .ok none

/-- The error of `cmd.Run()`: nil exactly when the child exited with status 0. -/
def RunResult.err (res : RunResult) : Except Err Unit :=
  if res = .exited 0 then .ok () else .error (.run res)

/-- The result of `os.Hostname()`. -/
def osHostname (env : Env) : Except Err String :=
  match env.hostname with
  | some h => .ok h
  | none => .error .hostname

/-- Lines 189-218 of `leader`, the recording of the run: read `lastNode`, write
time and host conditioned on the version read; read `commandNode`, write the
command joined by spaces conditioned on the version read.  The first failure
is sent on `block` and ends the goroutine; after the last write the channel is
closed. -/
def record (env : Env) (g : Globals) (w : World) : Signal × World :=
  let s := env.others 0 w.store
  let got := zkGet s (env.reachable 0) g.lastNode
  let w : World := ⟨s, w.trace ++ [.get g.lastNode got.toOption]⟩
  sendError (got.mapError Err.zk) w fun stat =>
    let version : Int := stat.version
    let nowTime := env.now
    sendError (osHostname env) w fun hostname =>
      let runinfo := nowTime ++ " " ++ hostname
      let s := env.others 1 w.store
      let put := zkSet s (env.reachable 1) g.lastNode runinfo version
      let w : World := ⟨put.2, w.trace ++ [.set g.lastNode runinfo version put.1.toOption]⟩
      sendError (put.1.mapError Err.zk) w fun _ =>
        let s := env.others 2 w.store
        let got := zkGet s (env.reachable 2) g.commandNode
        let w : World := ⟨s, w.trace ++ [.get g.commandNode got.toOption]⟩
        sendError (got.mapError Err.zk) w fun stat =>
          let version : Int := stat.version
          let flatCmd := " ".intercalate g.command
          let s := env.others 3 w.store
          let put := zkSet s (env.reachable 3) g.commandNode flatCmd version
          let w : World :=
            ⟨put.2, w.trace ++ [.set g.commandNode flatCmd version put.1.toOption]⟩
          sendError (put.1.mapError Err.zk) w fun _ =>
            (.closed, w)

/-- The function `leader`: build the child process from `command[0]` and
`command[1:]` (a panic for an empty command), resolve the configured user, run
the child, and only after a run without error record it. -/
def leader (env : Env) (g : Globals) (w : World) : Signal × World :=
  match g.command.head?, sliceFrom g.command 1 with
  | some name, some rest =>
    sendError (credential env) w fun cred =>
      let res := env.cmdRun (name :: rest) cred
      let w : World := ⟨w.store, w.trace ++ [.exec (name :: rest) cred res]⟩
      sendError res.err w fun _ =>
        record env g w
  | _, _ => (.panicked, w)

/-! ## The orchestrator -/

/-- How lines 85-136 of `run` end: with an exit status, with a panic, or with
the namespace in place and the package variables set. -/
inductive Setup
  | exit (status : Nat) (w : World)
  | panic (w : World)
  | ready (g : Globals) (w : World)

/-- Lines 85-136 of `run`: connect, ensure the fixed hierarchy and the
syncgroup node, take the command from the arguments, hash it, ensure the
fingerprint node and its children `last`, `command` and `runlock`. -/
def setup (env : Env) (s : Store) : Setup :=
  let (w, chroot) := connect env s
  match zkHier env w (Join [chroot, "zkmutex"]) with
  | (false, w) => .exit 1 w
  | (true, w) =>
    let zkMutexPath := Join [chroot, "zkmutex", env.syncGroup]
    match zkCreatePath env w zkMutexPath with
    | (false, w) => .exit 1 w
    | (true, w) =>
      match getCommand env.args with
      | none => .panic w
      | some command =>
        if command.length = 0 then .exit 1 w
        else
          let zkMutexPath := Join [zkMutexPath, cmdHash command]
          match zkCreatePath env w zkMutexPath with
          | (false, w) => .exit 1 w
          | (true, w) =>
            let lastNode := Join [zkMutexPath, "last"]
            match zkCreatePath env w lastNode with
            | (false, w) => .exit 1 w
            | (true, w) =>
              let commandNode := Join [zkMutexPath, "command"]
              match zkCreatePath env w commandNode with
              | (false, w) => .exit 1 w
              | (true, w) =>
                let runLock := Join [zkMutexPath, "runlock"]
                match zkCreatePath env w runLock with
                | (false, w) => .exit 1 w
                | (true, w) => .ready ⟨command, lastNode, commandNode, runLock⟩ w

/-- The result of `run`: the exit status (`none` when the process panicked
instead) and the final state. -/
structure Result where
  /-- The value `run` returns. -/
  code : Option Nat
  /-- Store and events at the end. -/
  world : World

/-- The function `run` from line 85 on: after the setup, wait for the election;
on `errChan` return 1, on `leaderChan` start `leader` and wait for `block`; an
error received there gives 1, the closed channel gives 0. -/
def run (env : Env) (s : Store) : Result :=
  match setup env s with
  | .exit status w => ⟨some status, w⟩
  | .panic w => ⟨none, w⟩
  | .ready g w =>
    let won := zkLeaderLock env
    let w : World := ⟨w.store, w.trace ++ [.election won]⟩
    if won then
      match leader env g w with
      | (.panicked, w) => ⟨none, w⟩
      | (.sent e, w) => if errorOK (some e) then ⟨some 1, w⟩ else ⟨some 0, w⟩
      | (.closed, w) => if errorOK none then ⟨some 1, w⟩ else ⟨some 0, w⟩
    else ⟨some 1, w⟩

/-! ## Vocabulary of the statements -/

/-- The final state of the setup, however it ended. -/
def Setup.world : Setup → World
  | .exit _ w => w
  | .panic w => w
  | .ready _ w => w

/-- The paths of the ensure events of a trace, in order. -/
def ensured (tr : List Event) : List String :=
  tr.filterMap fun e =>
    match e with
    | .ensure p _ => some p
    | _ => none

/-- A read or a write of a node's value: `Get` or `Set`. -/
def Event.isRequest : Event → Bool
  | .get _ _ => true
  | .set _ _ _ _ => true
  | _ => false

/-- A start of the child process. -/
def Event.isExec : Event → Bool
  | .exec _ _ _ => true
  | _ => false

/-- An election signal. -/
def Event.isElection : Event → Bool
  | .election _ => true
  | _ => false

/-- Whether the trace holds a run of the child that returned no error. -/
def commandRan (tr : List Event) : Bool :=
  tr.any fun e =>
    match e with
    | .exec _ _ (.exited 0) => true
    | _ => false

/-- The conditional writes of a trace in order: the node and whether the
service accepted the write. -/
def writes (tr : List Event) : List (String × Bool) :=
  tr.filterMap fun e =>
    match e with
    | .set p _ _ r => some (p, r.isSome)
    | _ => none

/-- The four events of a complete recording: each node is read and then written
once, conditioned on the version read, which the write advances by one. -/
def recorded (env : Env) (g : Globals) (host : String) (n1 n2 : Node) : List Event :=
  [.get g.lastNode (some n1),
   .set g.lastNode (env.now ++ " " ++ host) n1.version (some (n1.version + 1)),
   .get g.commandNode (some n2),
   .set g.commandNode (" ".intercalate g.command) n2.version (some (n2.version + 1))]

/-- The arguments after the first `--`, none when there is no `--`: the
specification's reading of the command line. -/
def afterSeparator (args : List String) : List String :=
  (args.dropWhile fun a => a ≠ "--").drop 1

/-- The path element `..`. -/
def dotdot : List Char := ['.', '.']

/-- An ordinary path element: not empty, without separator, and neither `.`
nor `..`. -/
def Plain (e : List Char) : Prop :=
  e ≠ [] ∧ '/' ∉ e ∧ e ≠ ['.'] ∧ e ≠ ['.', '.']

/-- A node name, a single path segment: not empty, without separator, and
neither `.` nor `..`. -/
def IsName (s : String) : Prop := Plain s.data

instance (s : String) : Decidable (IsName s) := by
  unfold IsName Plain
  infer_instance

/-- Whether a path starts at the root directory. -/
def rooted (path : List Char) : Bool := path.head? = some '/'

/-- The elements `Clean` keeps of a path. -/
def stack (path : List Char) : List (List Char) :=
  (splitSlash path).foldl (cleanElem (rooted path)) []

/-- The cleaned path with the given elements: below the root directory, or
relative, where no element at all is the current directory `.`. -/
def render (r : Bool) (st : List (List Char)) : List Char :=
  if r then '/' :: joinSlash st
  else if st = [] then ['.']
  else joinSlash st

/-- The elements of a cleaned path: ordinary elements, after leading `..`
elements in a relative path. -/
def Good (r : Bool) (st : List (List Char)) : Prop :=
  ∃ k names, st = List.replicate k dotdot ++ names ∧ (r = true → k = 0) ∧
    ∀ e ∈ names, Plain e

/-- A cleaned path: a value of `filepath.Clean`. -/
def Cleaned (p : String) : Prop := ∃ r st, Good r st ∧ p = String.mk (render r st)

/-- The function `filepath.Clean` on strings. -/
def cleanPath (p : String) : String := String.mk (Clean p.data)

/-- The path of the child named `x` of the node at the cleaned path `p`, which
is `p/x`; the root directory `/` and the current directory `.` are not
repeated. -/
def child (p x : String) : String :=
  if p = "/" then "/" ++ x
  else if p = "." then x
  else p ++ "/" ++ x

/-- The six nodes of section 4.2 below a root, in the order `<root>/zkmutex`,
`<root>/zkmutex/<syncgroup>`, the fingerprint node, and its children `last`,
`command`, `runlock`. -/
def tree (root syncgroup fingerprint : String) : List String :=
  [child root "zkmutex",
   child (child root "zkmutex") syncgroup,
   child (child (child root "zkmutex") syncgroup) fingerprint,
   child (child (child (child root "zkmutex") syncgroup) fingerprint) "last",
   child (child (child (child root "zkmutex") syncgroup) fingerprint) "command",
   child (child (child (child root "zkmutex") syncgroup) fingerprint) "runlock"]

/-- The six paths as `run` computes them for a command. -/
def nodePaths (env : Env) (command : List String) : List String :=
  [Join [env.chroot, "zkmutex"],
   Join [env.chroot, "zkmutex", env.syncGroup],
   Join [Join [env.chroot, "zkmutex", env.syncGroup], cmdHash command],
   Join [Join [Join [env.chroot, "zkmutex", env.syncGroup], cmdHash command], "last"],
   Join [Join [Join [env.chroot, "zkmutex", env.syncGroup], cmdHash command], "command"],
   Join [Join [Join [env.chroot, "zkmutex", env.syncGroup], cmdHash command], "runlock"]]

/-- A service without nodes. -/
def emptyStore : Store := fun _ => none

/-- The end-to-end scenario of section 8: command `echo hi`, syncgroup `prod`,
no chroot, one contender, nothing fails, no other client. -/
def quietEnv : Env where
  args := ["zkmutex", "--", "echo", "hi"]
  syncGroup := "prod"
  user := ""
  chroot := "/"
  ensureOK := fun _ => true
  electionWon := true
  lookup := fun _ => none
  cmdRun := fun _ _ => .exited 0
  now := "2017-06-01T12:00:00.000000001Z"
  hostname := some "host1"
  reachable := fun _ => true
  others := fun _ st => st

/-- The fingerprint of `echo hi`: BLAKE2b-512 of `echohi` in hex. -/
def echoHash : String :=
  "9643db45e5ca0e9f26cfbffa884c6fd99f8dff86597fe1f0c5f81386abf0a2c024f9ec39ebe699f0934fa230e8c1f443c97057f2ab0762189a184d0338a21260"

/-- The fingerprint node of `echo hi` in syncgroup `prod`. -/
def echoNode : String := "/zkmutex/prod/" ++ echoHash

/-- The package variables of the scenario. -/
def echoGlobals : Globals :=
  ⟨["echo", "hi"], echoNode ++ "/last", echoNode ++ "/command", echoNode ++ "/runlock"⟩

/-- A service whose last node of `echo hi` is at version 2. -/
def staleStore : Store :=
  fun p => if p = echoNode ++ "/last" then some ⟨"2017-05-31T08:00:00Z host0", 2⟩ else none

/-- The scenario with another writer whose write to the last node is accepted
between the leader's read and its write. -/
def staleEnv : Env :=
  { quietEnv with
    others := fun i st =>
      if i = 1 then st.put (echoNode ++ "/last") ⟨"2017-06-01T11:59:59Z host2", 3⟩ else st }

/-- The scenario with a child process that exits with status 1. -/
def failEnv : Env := { quietEnv with cmdRun := fun _ _ => .exited 1 }

/-- The scenario with an election that signals failure. -/
def lostEnv : Env := { quietEnv with electionWon := false }

/-- The scenario without `--` in the arguments. -/
def bareEnv : Env := { quietEnv with args := ["zkmutex", "-c", "zkmutex.conf"] }

/-- The scenario under the chroot `/apps/locks`, where ensuring the last node fails. -/
def deepEnv : Env :=
  { quietEnv with
    chroot := "/apps/locks"
    ensureOK := fun p => p ≠ "/apps/locks" ++ echoNode ++ "/last" }

/-- The scenario under the chroot `/apps` with the syncgroup `..`. -/
def dotsEnv : Env := { quietEnv with chroot := "/apps", syncGroup := ".." }

/-! # Lemmas -/

/-! ## The fingerprint -/

theorem absorbed_foldl (command : List String) (d : Digest) :
    (command.foldl (fun blake tok => blake.Write (bytes tok)) d).absorbed
      = d.absorbed ++ command.flatMap bytes := by
  induction command generalizing d with
  | nil => simp
  | cons t ts ih =>
    rw [List.foldl_cons, ih]
    simp [Digest.Write]

theorem bytes_join (command : List String) :
    bytes (String.join command) = command.flatMap bytes := by
  unfold bytes
  rw [String.data_join]
  induction command with
  | nil => simp
  | cons t ts ih => simp [ih]

theorem cmdHash_eq (command : List String) :
    cmdHash command = hexEncode (Blake2b.sum512 (command.flatMap bytes)) := by
  simp [cmdHash, absorbed_foldl, Digest.Sum, New512]

/-! ## The command line -/

theorem scanArgs_eq (args : List String) (n i : Nat) (h : i + n = args.length) :
    scanArgs args i n = some (afterSeparator (args.drop i)) := by
  induction n generalizing i with
  | zero =>
    have hi : args.length ≤ i := by omega
    simp [scanArgs, afterSeparator, List.drop_of_length_le hi]
  | succ n ih =>
    have hi : i < args.length := by omega
    have hd : args.drop i = args[i] :: args.drop (i + 1) := List.drop_eq_getElem_cons hi
    simp only [scanArgs, List.getElem?_eq_getElem hi]
    rw [hd]
    by_cases ha : args[i] = "--"
    · have hle : i + 1 ≤ args.length := hi
      rw [if_pos ha, ha]
      simp [sliceFrom, hle, afterSeparator]
    · rw [if_neg ha, ih (i + 1) (by omega)]
      generalize args.drop (i + 1) = rest
      generalize args[i] = a at ha
      simp [afterSeparator, List.dropWhile_cons, ha]

theorem getCommand_eq (args : List String) :
    getCommand args = some (afterSeparator args) := by
  simpa [getCommand] using scanArgs_eq args args.length 0 (by simp)

theorem afterSeparator_append (pre post : List String) (h : "--" ∉ pre) :
    afterSeparator (pre ++ "--" :: post) = post := by
  induction pre with
  | nil => simp [afterSeparator]
  | cons a pre ih =>
    have ha : a ≠ "--" := fun e => h (by simp [e])
    have hp : "--" ∉ pre := fun e => h (by simp [e])
    have := ih hp
    simp only [afterSeparator] at this ⊢
    simpa [ha] using this

theorem afterSeparator_none (args : List String) (h : "--" ∉ args) :
    afterSeparator args = [] := by
  induction args with
  | nil => simp [afterSeparator]
  | cons a args ih =>
    have ha : a ≠ "--" := fun e => h (by simp [e])
    have hp : "--" ∉ args := fun e => h (by simp [e])
    have := ih hp
    simp only [afterSeparator] at this ⊢
    simpa [ha] using this

/-! ## Paths -/

theorem splitSlash_ne_nil (p : List Char) : splitSlash p ≠ [] := by
  cases p with
  | nil => simp [splitSlash]
  | cons c cs =>
    unfold splitSlash
    split
    · simp
    · split <;> simp

theorem splitSlash_append (a b : List Char) :
    splitSlash (a ++ '/' :: b) = splitSlash a ++ splitSlash b := by
  induction a with
  | nil => simp [splitSlash]
  | cons c a ih =>
    by_cases hc : c = '/'
    · simp [splitSlash, hc, ih]
    · have hne := splitSlash_ne_nil a
      cases hs : splitSlash a with
      | nil => exact absurd hs hne
      | cons e es => simp [splitSlash, hc, ih, hs]

theorem splitSlash_plain (a : List Char) (h : '/' ∉ a) : splitSlash a = [a] := by
  induction a with
  | nil => simp [splitSlash]
  | cons c a ih =>
    have hc : c ≠ '/' := fun e => h (by simp [e])
    have ha : '/' ∉ a := fun e => h (by simp [e])
    simp [splitSlash, hc, ih ha]

theorem joinSlash_cons_cons (c : Char) (a : List Char) (X : List (List Char)) :
    joinSlash ((c :: a) :: X) = c :: joinSlash (a :: X) := by
  cases X <;> simp [joinSlash]

theorem splitSlash_joinSlash (a : List Char) (X : List (List Char))
    (hX : ∀ x ∈ X, '/' ∉ x) :
    splitSlash (joinSlash (a :: X)) = splitSlash a ++ X := by
  induction X generalizing a with
  | nil => simp [joinSlash]
  | cons x X ih =>
    have hx : '/' ∉ x := hX x (by simp)
    have hX2 : ∀ y ∈ X, '/' ∉ y := fun y hy => hX y (by simp [hy])
    simp only [joinSlash]
    rw [splitSlash_append, ih x hX2, splitSlash_plain x hx]
    simp

theorem cleanElem_nil (r : Bool) (out : List (List Char)) : cleanElem r out [] = out := by
  simp [cleanElem]

theorem cleanElem_plain (r : Bool) (out : List (List Char)) (e : List Char)
    (h1 : e ≠ []) (h2 : e ≠ ['.']) (h3 : e ≠ ['.', '.']) :
    cleanElem r out e = out ++ [e] := by
  simp [cleanElem, h1, h2, h3]

theorem foldl_cleanElem (r : Bool) (l out : List (List Char))
    (h : ∀ e ∈ l, e = [] ∨ (e ≠ ['.'] ∧ e ≠ ['.', '.'])) :
    l.foldl (cleanElem r) out = out ++ l.filter (fun e => e ≠ []) := by
  induction l generalizing out with
  | nil => simp
  | cons e l ih =>
    have hl : ∀ e ∈ l, e = [] ∨ (e ≠ ['.'] ∧ e ≠ ['.', '.']) :=
      fun x hx => h x (by simp [hx])
    rw [List.foldl_cons, ih _ hl]
    by_cases he : e = []
    · simp [he, cleanElem_nil]
    · rcases h e (by simp) with h0 | ⟨h2, h3⟩
      · exact absurd h0 he
      · simp [cleanElem_plain r out e he h2 h3, he]

theorem joinSlash_snoc (O : List (List Char)) (x : List Char) :
    joinSlash (O ++ [x]) = O.flatMap (fun e => e ++ ['/']) ++ x := by
  induction O with
  | nil => simp [joinSlash]
  | cons e O ih =>
    cases O with
    | nil => simp [joinSlash]
    | cons e2 O =>
      have : joinSlash (e :: e2 :: O ++ [x]) = e ++ '/' :: joinSlash (e2 :: O ++ [x]) := by
        simp [joinSlash]
      rw [this, ih]
      simp

theorem Clean_child (z : List Char) (hz : z ≠ []) :
    ∃ pre : List Char, ∀ y : List Char, '/' ∉ y → y ≠ [] → y ≠ ['.'] → y ≠ ['.', '.'] →
      Clean (z ++ '/' :: y) = pre ++ y := by
  cases z with
  | nil => exact absurd rfl hz
  | cons c zs =>
    by_cases hc : c = '/'
    · refine ⟨'/' :: ((splitSlash (c :: zs)).foldl (cleanElem true) []).flatMap
        (fun e => e ++ ['/']), ?_⟩
      intro y hy y1 y2 y3
      have : Clean (c :: zs ++ '/' :: y)
          = '/' :: joinSlash ((splitSlash (c :: zs ++ '/' :: y)).foldl (cleanElem true) []) := by
        simp [Clean, hc]
      rw [this, splitSlash_append, List.foldl_append, splitSlash_plain y hy]
      simp only [List.foldl_cons, List.foldl_nil]
      rw [cleanElem_plain _ _ y y1 y2 y3, joinSlash_snoc]
      simp
    · refine ⟨((splitSlash (c :: zs)).foldl (cleanElem false) []).flatMap
        (fun e => e ++ ['/']), ?_⟩
      intro y hy y1 y2 y3
      have hout : (splitSlash (c :: zs ++ '/' :: y)).foldl (cleanElem false) []
          = (splitSlash (c :: zs)).foldl (cleanElem false) [] ++ [y] := by
        rw [splitSlash_append, List.foldl_append, splitSlash_plain y hy]
        simp only [List.foldl_cons, List.foldl_nil]
        rw [cleanElem_plain _ _ y y1 y2 y3]
      have : Clean (c :: zs ++ '/' :: y)
          = joinSlash ((splitSlash (c :: zs ++ '/' :: y)).foldl (cleanElem false) []) := by
        have hout2 := hout
        simp only [List.cons_append] at hout2
        simp only [Clean]
        simp [hc, hout2]
      rw [this, hout, joinSlash_snoc]

theorem Join_last_ne_command (z : String) : Join [z, "last"] ≠ Join [z, "command"] := by
  by_cases hz : z.data = []
  · simp only [Join, List.map_cons, List.map_nil, hz, List.dropWhile_cons]
    decide
  · obtain ⟨pre, hpre⟩ := Clean_child z.data hz
    have hl := hpre "last".data (by decide) (by decide) (by decide) (by decide)
    have hc := hpre "command".data (by decide) (by decide) (by decide) (by decide)
    have e1 : Join [z, "last"] = String.mk (Clean (z.data ++ '/' :: "last".data)) := by
      simp [Join, List.dropWhile_cons, hz, joinSlash]
    have e2 : Join [z, "command"] = String.mk (Clean (z.data ++ '/' :: "command".data)) := by
      simp [Join, List.dropWhile_cons, hz, joinSlash]
    rw [e1, e2, hl, hc]
    intro h
    have h2 := congrArg String.data h
    simp only [List.append_cancel_left_eq] at h2
    revert h2
    decide

/-! ## The fingerprint is a node name -/

theorem F_length (h block : List Nat) (t : Nat) (final : Bool) :
    (Blake2b.F h block t final).length = 8 := by
  simp [Blake2b.F]

theorem absorb_length (fuel : Nat) (h : List Nat) (t : Nat) (d : List Nat)
    (hh : h.length = 8) : (Blake2b.absorb fuel h t d).length = 8 := by
  induction fuel generalizing h t d with
  | zero => simpa [Blake2b.absorb] using hh
  | succ n ih =>
    unfold Blake2b.absorb
    split
    · exact F_length _ _ _ _
    · exact ih _ _ _ (F_length _ _ _ _)

theorem length_flatMap_leBytes (l : List Nat) :
    (l.flatMap Blake2b.leBytes).length = 8 * l.length := by
  induction l with
  | nil => simp
  | cons a l ih => simp [ih, Blake2b.leBytes]; omega

theorem sum512_length (d : List Nat) : (Blake2b.sum512 d).length = 64 := by
  unfold Blake2b.sum512
  rw [length_flatMap_leBytes, absorb_length _ _ _ _ (by decide)]

theorem hextable_getD_mem : ∀ i, i < 16 → hextable.getD i '0' ∈ hextable := by
  decide

theorem hexByte_mem (v : Nat) : ∀ c ∈ hexByte v, c ∈ hextable := by
  intro c hc
  simp only [hexByte, List.mem_cons, List.mem_singleton, List.not_mem_nil, or_false] at hc
  rcases hc with rfl | rfl
  · exact hextable_getD_mem _ (by omega)
  · exact hextable_getD_mem _ (by omega)

theorem hexEncode_mem (src : List Nat) : ∀ c ∈ (hexEncode src).data, c ∈ hextable := by
  intro c hc
  simp only [hexEncode, List.mem_flatMap] at hc
  obtain ⟨v, _, hv⟩ := hc
  exact hexByte_mem v c hv

theorem hexEncode_length (src : List Nat) : (hexEncode src).data.length = 2 * src.length := by
  simp only [hexEncode]
  induction src with
  | nil => simp
  | cons a l ih => simp [ih, hexByte]; omega

theorem cmdHash_isName (command : List String) : IsName (cmdHash command) := by
  rw [cmdHash_eq]
  have hlen := hexEncode_length (Blake2b.sum512 (command.flatMap bytes))
  rw [sum512_length] at hlen
  have hmem := hexEncode_mem (Blake2b.sum512 (command.flatMap bytes))
  refine ⟨?_, ?_, ?_, ?_⟩
  · intro h
    rw [h] at hlen
    simp at hlen
  · intro h
    exact absurd (hmem _ h) (by decide)
  · intro h
    rw [h] at hlen
    simp at hlen
  · intro h
    rw [h] at hlen
    simp at hlen

theorem first_separator (args : List String) (h : "--" ∈ args) :
    ∃ pre post, "--" ∉ pre ∧ args = pre ++ "--" :: post := by
  induction args with
  | nil => simp at h
  | cons a args ih =>
    by_cases ha : a = "--"
    · exact ⟨[], args, by simp, by simp [ha]⟩
    · have hm : "--" ∈ args := by
        rcases List.mem_cons.1 h with h | h
        · exact absurd h.symm ha
        · exact h
      obtain ⟨pre, post, hpre, rfl⟩ := ih hm
      refine ⟨a :: pre, post, ?_, by simp⟩
      intro hmem
      rcases List.mem_cons.1 hmem with h | h
      · exact ha h.symm
      · exact hpre h

/-! ## Cleaned paths -/

theorem Clean_eq_render (z : List Char) : Clean z = render (rooted z) (stack z) := by
  cases z with
  | nil => simp [Clean, render, rooted, stack, splitSlash, cleanElem]
  | cons c zs =>
    by_cases hc : c = '/'
    · simp [Clean, render, rooted, stack, hc]
    · simp [Clean, render, rooted, stack, hc]

theorem splitSlash_noSlash (p : List Char) : ∀ e ∈ splitSlash p, '/' ∉ e := by
  induction p with
  | nil => simp [splitSlash]
  | cons c cs ih =>
    by_cases hc : c = '/'
    · intro e he
      simp [splitSlash, hc] at he
      rcases he with rfl | he
      · simp
      · exact ih e he
    · have hne := splitSlash_ne_nil cs
      cases hs : splitSlash cs with
      | nil => exact absurd hs hne
      | cons e0 es =>
        rw [hs] at ih
        intro e he
        simp [splitSlash, hc, hs] at he
        rcases he with rfl | he
        · have := ih e0 (by simp)
          intro h
          simp at h
          rcases h with h | h
          · exact hc h.symm
          · exact this h
        · exact ih e (by simp [he])

theorem good_snoc (r : Bool) (st : List (List Char)) (x : List Char)
    (h : Good r st) (hx : Plain x) : Good r (st ++ [x]) := by
  obtain ⟨k, names, rfl, hk, hn⟩ := h
  refine ⟨k, names ++ [x], by simp, hk, ?_⟩
  intro e he
  rcases List.mem_append.1 he with he | he
  · exact hn e he
  · simp at he
    subst he
    exact hx

theorem good_nil (r : Bool) : Good r [] := ⟨0, [], by simp, by simp, by simp⟩

theorem good_step (r : Bool) (out : List (List Char)) (e : List Char)
    (h : Good r out) (he : '/' ∉ e) : Good r (cleanElem r out e) := by
  unfold cleanElem
  by_cases h1 : e = [] ∨ e = ['.']
  · rw [if_pos h1]
    exact h
  · rw [if_neg h1]
    by_cases h2 : e = ['.', '.']
    · rw [if_pos h2]
      obtain ⟨k, names, rfl, hk, hn⟩ := h
      rcases List.eq_nil_or_concat names with hnames | ⟨ns, n, hnames⟩
      · subst hnames
        cases k with
        | zero =>
          simp only [List.replicate_zero, List.append_nil, List.getLast?_nil]
          cases r with
          | true => exact good_nil true
          | false => exact ⟨1, [], by simp [h2, dotdot], by simp, by simp⟩
        | succ k =>
          have hlast : (List.replicate (k + 1) dotdot ++ []).getLast? = some dotdot := by
            simp [List.getLast?_replicate]
          rw [hlast]
          cases r with
          | true => exact absurd (hk rfl) (by simp)
          | false =>
            simp only [dotdot, if_true]
            refine ⟨k + 2, [], ?_, by simp, by simp⟩
            simp [h2, dotdot, List.replicate_succ']
      · rw [List.concat_eq_append] at hnames
        subst hnames
        have hlast : (List.replicate k dotdot ++ (ns ++ [n])).getLast? = some n := by
          rw [← List.append_assoc, List.getLast?_append]
          simp
        have hn2 : n ≠ ['.', '.'] := (hn n (by simp)).2.2.2
        rw [hlast]
        simp only [hn2, if_false]
        refine ⟨k, ns, ?_, hk, fun e he => hn e (by simp [he])⟩
        rw [← List.append_assoc, List.dropLast_concat]
    · rw [if_neg h2]
      push_neg at h1
      exact good_snoc r out e h ⟨h1.1, he, h1.2, h2⟩

theorem good_foldl (r : Bool) (l out : List (List Char)) (h : Good r out)
    (hl : ∀ e ∈ l, '/' ∉ e) : Good r (l.foldl (cleanElem r) out) := by
  induction l generalizing out with
  | nil => simpa using h
  | cons e l ih =>
    rw [List.foldl_cons]
    exact ih _ (good_step r out e h (hl e (by simp))) (fun x hx => hl x (by simp [hx]))

theorem good_stack (z : List Char) : Good (rooted z) (stack z) :=
  good_foldl _ _ _ (good_nil _) (splitSlash_noSlash z)

theorem good_noSlash (r : Bool) (st : List (List Char)) (h : Good r st) :
    ∀ e ∈ st, '/' ∉ e ∧ e ≠ [] ∧ e ≠ ['.'] := by
  obtain ⟨k, names, rfl, -, hn⟩ := h
  intro e he
  rcases List.mem_append.1 he with he | he
  · have := List.eq_of_mem_replicate he
    subst this
    decide
  · exact ⟨(hn e he).2.1, (hn e he).1, (hn e he).2.2.1⟩

theorem restack_dots (j k : Nat) :
    (List.replicate k dotdot).foldl (cleanElem false) (List.replicate j dotdot)
      = List.replicate (j + k) dotdot := by
  induction k generalizing j with
  | zero => simp
  | succ k ih =>
    rw [List.replicate_succ, List.foldl_cons]
    have hstep : cleanElem false (List.replicate j dotdot) dotdot
        = List.replicate (j + 1) dotdot := by
      cases j with
      | zero => simp [cleanElem, dotdot]
      | succ j =>
        have hlast : (List.replicate (j + 1) dotdot).getLast? = some dotdot := by
          simp [List.getLast?_replicate]
        simp only [cleanElem, hlast]
        simp [dotdot, List.replicate_succ']
    rw [hstep, ih]
    congr 1
    omega

theorem restack (r : Bool) (st : List (List Char)) (h : Good r st) :
    st.foldl (cleanElem r) [] = st := by
  obtain ⟨k, names, rfl, hk, hn⟩ := h
  have hnames : ∀ out, names.foldl (cleanElem r) out = out ++ names := by
    intro out
    rw [foldl_cleanElem r names out (fun e he => Or.inr ⟨(hn e he).2.2.1, (hn e he).2.2.2⟩)]
    congr 1
    exact List.filter_eq_self.2 (fun e he => by simpa using (hn e he).1)
  rw [List.foldl_append, hnames]
  cases r with
  | true =>
    have := hk rfl
    subst this
    simp
  | false =>
    have := restack_dots 0 k
    simp only [List.replicate_zero, Nat.zero_add] at this
    rw [this]

theorem joinSlash_head (e : List Char) (es : List (List Char)) (he : e ≠ []) :
    (joinSlash (e :: es)).head? = e.head? := by
  cases e with
  | nil => exact absurd rfl he
  | cons c e => rw [joinSlash_cons_cons]; rfl

theorem rooted_render (r : Bool) (st : List (List Char)) (h : Good r st) :
    rooted (render r st) = r ∧ stack (render r st) = st := by
  have hns := good_noSlash r st h
  cases r with
  | true =>
    have hr : rooted (render true st) = true := by simp [rooted, render]
    refine ⟨hr, ?_⟩
    unfold stack
    rw [hr]
    have hsplit : splitSlash (render true st) = [] :: splitSlash (joinSlash st) := by
      simp [render, splitSlash]
    rw [hsplit, List.foldl_cons, cleanElem_nil]
    cases st with
    | nil => simp [joinSlash, splitSlash, cleanElem]
    | cons e es =>
      rw [splitSlash_joinSlash e es (fun y hy => (hns y (by simp [hy])).1),
        splitSlash_plain e (hns e (by simp)).1]
      exact restack true (e :: es) h
  | false =>
    cases st with
    | nil => simp [rooted, render, stack, splitSlash, cleanElem]
    | cons e es =>
      have he := hns e (by simp)
      have hr : rooted (render false (e :: es)) = false := by
        simp only [rooted, render]
        simp only [Bool.false_eq_true, if_false, reduceCtorEq]
        rw [joinSlash_head e es he.2.1]
        cases e with
        | nil => exact absurd rfl he.2.1
        | cons c e =>
          have : c ≠ '/' := fun hc => he.1 (by simp [hc])
          simp [this]
      refine ⟨hr, ?_⟩
      unfold stack
      rw [hr]
      have : render false (e :: es) = joinSlash (e :: es) := by simp [render]
      rw [this, splitSlash_joinSlash e es (fun y hy => (hns y (by simp [hy])).1),
        splitSlash_plain e he.1]
      exact restack false (e :: es) h

theorem rooted_append (z t : List Char) (hz : z ≠ []) : rooted (z ++ t) = rooted z := by
  cases z with
  | nil => exact absurd rfl hz
  | cons c zs => simp [rooted]

theorem Clean_snoc (z x : List Char) (hz : z ≠ []) (hx : Plain x) :
    Clean (z ++ '/' :: x) = render (rooted z) (stack z ++ [x]) := by
  rw [Clean_eq_render]
  have hr := rooted_append z ('/' :: x) hz
  have hs : stack (z ++ '/' :: x) = stack z ++ [x] := by
    unfold stack
    rw [hr, splitSlash_append, List.foldl_append, splitSlash_plain x hx.2.1]
    simp only [List.foldl_cons, List.foldl_nil]
    exact cleanElem_plain _ _ x hx.1 hx.2.2.1 hx.2.2.2
  rw [hr, hs]

theorem Clean_plain (x : List Char) (hx : Plain x) : Clean x = render false [x] := by
  rw [Clean_eq_render]
  have hr : rooted x = false := by
    cases x with
    | nil => exact absurd rfl hx.1
    | cons c x =>
      have : c ≠ '/' := fun hc => hx.2.1 (by simp [hc])
      simp [rooted, this]
  have hs : stack x = [x] := by
    unfold stack
    rw [hr, splitSlash_plain x hx.2.1]
    simp only [List.foldl_cons, List.foldl_nil]
    exact cleanElem_plain _ _ x hx.1 hx.2.2.1 hx.2.2.2
  rw [hr, hs]

theorem joinSlash_snoc_cons (e : List Char) (es : List (List Char)) (x : List Char) :
    joinSlash (e :: es ++ [x]) = joinSlash (e :: es) ++ '/' :: x := by
  induction es generalizing e with
  | nil => simp [joinSlash]
  | cons e2 es ih =>
    have h1 : joinSlash (e :: e2 :: es ++ [x]) = e ++ '/' :: joinSlash (e2 :: es ++ [x]) := by
      simp [joinSlash]
    have h2 : joinSlash (e :: e2 :: es) = e ++ '/' :: joinSlash (e2 :: es) := by
      simp [joinSlash]
    rw [h1, h2, ih]
    simp

theorem render_snoc (r : Bool) (st : List (List Char)) (x : List Char) (h : Good r st) :
    render r (st ++ [x]) =
      if render r st = ['/'] then '/' :: x
      else if render r st = ['.'] then x
      else render r st ++ '/' :: x := by
  have hns := good_noSlash r st h
  cases st with
  | nil =>
    cases r with
    | true => simp [render, joinSlash]
    | false => simp [render, joinSlash]
  | cons e es =>
    have he := hns e (by simp)
    have hj : joinSlash (e :: es) ≠ [] := by
      intro hj
      have := joinSlash_head e es he.2.1
      rw [hj] at this
      cases e with
      | nil => exact he.2.1 rfl
      | cons c e => simp at this
    cases r with
    | true =>
      have h1 : render true (e :: es) ≠ ['/'] := by simp [render, hj]
      have h2 : render true (e :: es) ≠ ['.'] := by simp [render]
      rw [if_neg h1, if_neg h2]
      simp only [render, if_true]
      rw [joinSlash_snoc_cons]
      simp
    | false =>
      have hrd : render false (e :: es) = joinSlash (e :: es) := by simp [render]
      have h1 : render false (e :: es) ≠ ['/'] := by
        rw [hrd]
        intro hh
        have := joinSlash_head e es he.2.1
        rw [hh] at this
        cases e with
        | nil => exact he.2.1 rfl
        | cons c e =>
          simp at this
          exact he.1 (by simp [this.symm])
      have h2 : render false (e :: es) ≠ ['.'] := by
        rw [hrd]
        intro hh
        cases es with
        | nil => exact he.2.2 (by simpa [joinSlash] using hh)
        | cons e2 es =>
          have hlen := congrArg List.length hh
          cases e with
          | nil => exact he.2.1 rfl
          | cons c e => simp [joinSlash] at hlen
      rw [if_neg h1, if_neg h2, hrd]
      have : render false (e :: es ++ [x]) = joinSlash (e :: es ++ [x]) := by simp [render]
      rw [this, joinSlash_snoc_cons]

theorem child_render (r : Bool) (st : List (List Char)) (x : String) (h : Good r st)
    (hx : IsName x) :
    child (String.mk (render r st)) x = String.mk (render r (st ++ [x.data])) := by
  rw [render_snoc r st x.data h]
  unfold child
  have e1 : (String.mk (render r st) = "/") = (render r st = ['/']) := by
    rw [String.ext_iff]
  have e2 : (String.mk (render r st) = ".") = (render r st = ['.']) := by
    rw [String.ext_iff]
  simp only [e1, e2]
  split
  · apply String.ext
    simp
  · split
    · rfl
    · apply String.ext
      simp

theorem cleaned_cleanPath (z : String) : Cleaned (cleanPath z) :=
  ⟨rooted z.data, stack z.data, good_stack z.data, by rw [cleanPath, Clean_eq_render]⟩

theorem cleaned_child (p x : String) (hp : Cleaned p) (hx : IsName x) :
    Cleaned (child p x) := by
  obtain ⟨r, st, hg, rfl⟩ := hp
  exact ⟨r, st ++ [x.data], good_snoc r st x.data hg hx, child_render r st x hg hx⟩

theorem render_ne_nil (r : Bool) (st : List (List Char)) (h : Good r st) :
    render r st ≠ [] := by
  have hns := good_noSlash r st h
  cases r with
  | true => simp [render]
  | false =>
    cases st with
    | nil => simp [render]
    | cons e es =>
      have he := hns e (by simp)
      simp only [render]
      simp only [Bool.false_eq_true, if_false, reduceCtorEq]
      intro hj
      have := joinSlash_head e es he.2.1
      rw [hj] at this
      cases e with
      | nil => exact he.2.1 rfl
      | cons c e => simp at this

theorem Join_cleaned (p x : String) (hp : Cleaned p) (hx : IsName x) :
    Join [p, x] = child p x := by
  obtain ⟨r, st, hg, rfl⟩ := hp
  have hne := render_ne_nil r st hg
  have hJ : Join [String.mk (render r st), x]
      = String.mk (Clean (render r st ++ '/' :: x.data)) := by
    simp [Join, List.dropWhile_cons, hne, joinSlash]
  obtain ⟨hr, hs⟩ := rooted_render r st hg
  rw [hJ, Clean_snoc _ _ hne hx, hr, hs, child_render r st x hg hx]

theorem Join_one (z x : String) (hx : IsName x) : Join [z, x] = child (cleanPath z) x := by
  by_cases hz : z.data = []
  · have hJ : Join [z, x] = String.mk (Clean x.data) := by
      simp [Join, List.dropWhile_cons, hz, hx.1, joinSlash]
    have hc : cleanPath z = String.mk (render false []) := by
      simp [cleanPath, hz, Clean, render]
    rw [hJ, hc, child_render false [] x (good_nil false) hx, Clean_plain _ hx]
    simp
  · have hJ : Join [z, x] = String.mk (Clean (z.data ++ '/' :: x.data)) := by
      simp [Join, List.dropWhile_cons, hz, joinSlash]
    rw [hJ, Clean_snoc _ _ hz hx, cleanPath, Clean_eq_render,
      child_render _ _ x (good_stack z.data) hx]

theorem Join_two (z x y : String) (hx : IsName x) (hy : IsName y) :
    Join [z, x, y] = child (child (cleanPath z) x) y := by
  have hxne : x.data ++ '/' :: y.data ≠ [] := by simp
  by_cases hz : z.data = []
  · have hJ : Join [z, x, y] = String.mk (Clean (x.data ++ '/' :: y.data)) := by
      simp [Join, List.dropWhile_cons, hz, hx.1, joinSlash]
    have hJ2 : Join [x, y] = String.mk (Clean (x.data ++ '/' :: y.data)) := by
      simp [Join, List.dropWhile_cons, hx.1, joinSlash]
    have hc : child (cleanPath z) x = cleanPath x := by
      rw [← Join_one z x hx]
      simp [Join, List.dropWhile_cons, hz, hx.1, joinSlash, cleanPath]
    rw [hJ, ← hJ2, hc, Join_one x y hy]
  · have hJ : Join [z, x, y]
        = String.mk (Clean ((z.data ++ '/' :: x.data) ++ '/' :: y.data)) := by
      simp [Join, List.dropWhile_cons, hz, joinSlash]
    have hzx : z.data ++ '/' :: x.data ≠ [] := by simp [hz]
    have hr := rooted_append z.data ('/' :: x.data) hz
    have hs : stack (z.data ++ '/' :: x.data) = stack z.data ++ [x.data] := by
      unfold stack
      rw [hr, splitSlash_append, List.foldl_append, splitSlash_plain x.data hx.2.1]
      simp only [List.foldl_cons, List.foldl_nil]
      exact cleanElem_plain _ _ x.data hx.1 hx.2.2.1 hx.2.2.2
    rw [hJ, Clean_snoc _ _ hzx hy, hr, hs, cleanPath, Clean_eq_render,
      child_render _ _ x (good_stack z.data) hx,
      child_render _ _ y (good_snoc _ _ _ (good_stack z.data) hx) hy]

theorem nodePaths_tree (env : Env) (cmd : List String) (hsg : IsName env.syncGroup) :
    nodePaths env cmd = tree (cleanPath env.chroot) env.syncGroup (cmdHash cmd) := by
  have hz : IsName "zkmutex" := by decide
  have hl : IsName "last" := by decide
  have hc : IsName "command" := by decide
  have hr : IsName "runlock" := by decide
  have hf := cmdHash_isName cmd
  have c1 := cleaned_child _ _ (cleaned_cleanPath env.chroot) hz
  have c2 := cleaned_child _ _ c1 hsg
  have c3 := cleaned_child _ _ c2 hf
  simp only [nodePaths, tree]
  rw [Join_one _ _ hz, Join_two _ _ _ hz hsg, Join_cleaned _ _ c2 hf, Join_cleaned _ _ c3 hl,
    Join_cleaned _ _ c3 hc, Join_cleaned _ _ c3 hr]

/-! ## The setup -/

theorem setup_ready (env : Env) (s : Store) (g : Globals) (w : World)
    (h : setup env s = .ready g w) :
    getCommand env.args = some g.command ∧ g.command ≠ [] ∧
    g.lastNode = Join [Join [Join [env.chroot, "zkmutex", env.syncGroup],
      cmdHash g.command], "last"] ∧
    g.commandNode = Join [Join [Join [env.chroot, "zkmutex", env.syncGroup],
      cmdHash g.command], "command"] ∧
    w.trace = .connect :: (nodePaths env g.command).map (fun p => .ensure p true) := by
  cases hc : getCommand env.args with
  | none =>
    by_cases h1 : env.ensureOK (Join [env.chroot, "zkmutex"]) = true <;>
    by_cases h2 : env.ensureOK (Join [env.chroot, "zkmutex", env.syncGroup]) = true <;>
    simp [setup, connect, zkHier, zkCreatePath, h1, h2, hc] at h
  | some cmd =>
    by_cases h0 : cmd = []
    · by_cases h1 : env.ensureOK (Join [env.chroot, "zkmutex"]) = true <;>
      by_cases h2 : env.ensureOK (Join [env.chroot, "zkmutex", env.syncGroup]) = true <;>
      simp [setup, connect, zkHier, zkCreatePath, h1, h2, hc, h0] at h
    · by_cases h1 : env.ensureOK (Join [env.chroot, "zkmutex"]) = true <;>
      by_cases h2 : env.ensureOK (Join [env.chroot, "zkmutex", env.syncGroup]) = true <;>
      by_cases h3 : env.ensureOK (Join [Join [env.chroot, "zkmutex", env.syncGroup],
        cmdHash cmd]) = true <;>
      by_cases h4 : env.ensureOK (Join [Join [Join [env.chroot, "zkmutex", env.syncGroup],
        cmdHash cmd], "last"]) = true <;>
      by_cases h5 : env.ensureOK (Join [Join [Join [env.chroot, "zkmutex", env.syncGroup],
        cmdHash cmd], "command"]) = true <;>
      by_cases h6 : env.ensureOK (Join [Join [Join [env.chroot, "zkmutex", env.syncGroup],
        cmdHash cmd], "runlock"]) = true <;>
      simp [setup, connect, zkHier, zkCreatePath, h1, h2, h3, h4, h5, h6, hc, h0] at h
      obtain ⟨rfl, rfl⟩ := h
      simp [nodePaths, h0]

theorem setup_not_panic (env : Env) (s : Store) (w : World) : setup env s ≠ .panic w := by
  by_cases h1 : env.ensureOK (Join [env.chroot, "zkmutex"]) = true <;>
  by_cases h2 : env.ensureOK (Join [env.chroot, "zkmutex", env.syncGroup]) = true <;>
  by_cases h0 : afterSeparator env.args = [] <;>
  simp [setup, connect, zkHier, zkCreatePath, h1, h2, getCommand_eq, h0]
  by_cases h3 : env.ensureOK (Join [Join [env.chroot, "zkmutex", env.syncGroup],
    cmdHash (afterSeparator env.args)]) = true <;>
  by_cases h4 : env.ensureOK (Join [Join [Join [env.chroot, "zkmutex", env.syncGroup],
    cmdHash (afterSeparator env.args)], "last"]) = true <;>
  by_cases h5 : env.ensureOK (Join [Join [Join [env.chroot, "zkmutex", env.syncGroup],
    cmdHash (afterSeparator env.args)], "command"]) = true <;>
  by_cases h6 : env.ensureOK (Join [Join [Join [env.chroot, "zkmutex", env.syncGroup],
    cmdHash (afterSeparator env.args)], "runlock"]) = true <;>
  simp [h3, h4, h5, h6]

theorem setup_trace (env : Env) (s : Store) (cmd : List String)
    (hc : getCommand env.args = some cmd) (h0 : cmd ≠ []) :
    (setup env s).world.trace = .connect ::
      ((nodePaths env cmd).take (((nodePaths env cmd).takeWhile env.ensureOK).length + 1)).map
        (fun p => .ensure p (env.ensureOK p)) ∧
    (((nodePaths env cmd).takeWhile env.ensureOK).length < 6 → ∃ w, setup env s = .exit 1 w) ∧
    (((nodePaths env cmd).takeWhile env.ensureOK).length = 6 →
      ∃ w, setup env s = .ready ⟨cmd, (nodePaths env cmd).getD 3 "",
        (nodePaths env cmd).getD 4 "", (nodePaths env cmd).getD 5 ""⟩ w) := by
  by_cases h1 : env.ensureOK (Join [env.chroot, "zkmutex"]) = true <;>
  by_cases h2 : env.ensureOK (Join [env.chroot, "zkmutex", env.syncGroup]) = true <;>
  by_cases h3 : env.ensureOK (Join [Join [env.chroot, "zkmutex", env.syncGroup],
    cmdHash cmd]) = true <;>
  by_cases h4 : env.ensureOK (Join [Join [Join [env.chroot, "zkmutex", env.syncGroup],
    cmdHash cmd], "last"]) = true <;>
  by_cases h5 : env.ensureOK (Join [Join [Join [env.chroot, "zkmutex", env.syncGroup],
    cmdHash cmd], "command"]) = true <;>
  by_cases h6 : env.ensureOK (Join [Join [Join [env.chroot, "zkmutex", env.syncGroup],
    cmdHash cmd], "runlock"]) = true <;>
  simp [setup, connect, zkHier, zkCreatePath, Setup.world, nodePaths, List.takeWhile_cons,
    h1, h2, h3, h4, h5, h6, hc, h0]

theorem setup_empty (env : Env) (s : Store) (hc : getCommand env.args = some []) :
    ∃ w, setup env s = .exit 1 w ∧
      w.trace = .connect ::
        .ensure (Join [env.chroot, "zkmutex"]) (env.ensureOK (Join [env.chroot, "zkmutex"])) ::
        (if env.ensureOK (Join [env.chroot, "zkmutex"]) = true then
          [.ensure (Join [env.chroot, "zkmutex", env.syncGroup])
            (env.ensureOK (Join [env.chroot, "zkmutex", env.syncGroup]))]
        else []) := by
  by_cases h1 : env.ensureOK (Join [env.chroot, "zkmutex"]) = true <;>
  by_cases h2 : env.ensureOK (Join [env.chroot, "zkmutex", env.syncGroup]) = true <;>
  simp [setup, connect, zkHier, zkCreatePath, h1, h2, hc]

/-! ## Traces -/

@[simp] theorem writes_nil : writes [] = [] := rfl

@[simp] theorem writes_append (a b : List Event) : writes (a ++ b) = writes a ++ writes b := by
  simp [writes, List.filterMap_append]

@[simp] theorem writes_connect (l : List Event) : writes (.connect :: l) = writes l := rfl

@[simp] theorem writes_ensure (p : String) (b : Bool) (l : List Event) :
    writes (.ensure p b :: l) = writes l := rfl

@[simp] theorem writes_election (b : Bool) (l : List Event) :
    writes (.election b :: l) = writes l := rfl

@[simp] theorem writes_exec (a : List String) (c : Option (Nat × Nat)) (r : RunResult)
    (l : List Event) : writes (.exec a c r :: l) = writes l := rfl

@[simp] theorem writes_get (p : String) (r : Option Node) (l : List Event) :
    writes (.get p r :: l) = writes l := rfl

@[simp] theorem writes_set (p d : String) (v : Int) (r : Option Nat) (l : List Event) :
    writes (.set p d v r :: l) = (p, r.isSome) :: writes l := rfl

@[simp] theorem commandRan_nil : commandRan [] = false := rfl

@[simp] theorem commandRan_connect (l : List Event) :
    commandRan (.connect :: l) = commandRan l := by
  simp [commandRan]

@[simp] theorem commandRan_ensure (p : String) (b : Bool) (l : List Event) :
    commandRan (.ensure p b :: l) = commandRan l := by
  simp [commandRan]

@[simp] theorem commandRan_election (b : Bool) (l : List Event) :
    commandRan (.election b :: l) = commandRan l := by
  simp [commandRan]

@[simp] theorem commandRan_get (p : String) (r : Option Node) (l : List Event) :
    commandRan (.get p r :: l) = commandRan l := by
  simp [commandRan]

@[simp] theorem commandRan_set (p d : String) (v : Int) (r : Option Nat) (l : List Event) :
    commandRan (.set p d v r :: l) = commandRan l := by
  simp [commandRan]

@[simp] theorem commandRan_exec_ok (a : List String) (c : Option (Nat × Nat))
    (l : List Event) : commandRan (.exec a c (.exited 0) :: l) = true := by
  simp [commandRan]

theorem commandRan_exec_failed (a : List String) (c : Option (Nat × Nat)) (r : RunResult)
    (hr : r ≠ .exited 0) (l : List Event) :
    commandRan (.exec a c r :: l) = commandRan l := by
  cases r with
  | notStarted => simp [commandRan]
  | exited st =>
    have : st ≠ 0 := fun e => hr (by rw [e])
    simp [commandRan, this]

@[simp] theorem commandRan_append (a b : List Event) :
    commandRan (a ++ b) = (commandRan a || commandRan b) := by
  simp [commandRan, List.any_append]

theorem setup_quiet (env : Env) (s : Store) (g : Globals) (w : World)
    (h : setup env s = .ready g w) :
    writes w.trace = [] ∧ commandRan w.trace = false ∧ ensured w.trace = nodePaths env g.command ∧
    ∀ e ∈ w.trace, e.isRequest = false ∧ e.isExec = false ∧ e.isElection = false := by
  obtain ⟨_, _, _, _, ht⟩ := setup_ready env s g w h
  rw [ht]
  simp [nodePaths, ensured, Event.isRequest, Event.isExec, Event.isElection]

/-! ## The leader -/

theorem zkGet_ok (s : Store) (up : Bool) (path : String) (n : Node)
    (h : zkGet s up path = .ok n) : up = true ∧ s path = some n := by
  unfold zkGet at h
  cases up with
  | false => simp at h
  | true =>
    cases hs : s path with
    | none => simp [hs] at h
    | some m =>
      simp only [hs, if_true] at h
      injection h with h
      simp [h]

theorem zkSet_ok (s : Store) (up : Bool) (path data : String) (version : Nat) (v : Nat)
    (s2 : Store) (h : zkSet s up path data (version : Int) = (.ok v, s2)) :
    up = true ∧ (∃ n, s path = some n ∧ n.version = version) ∧ v = version + 1 ∧
      s2 = s.put path ⟨data, version + 1⟩ := by
  unfold zkSet at h
  cases up with
  | false => simp at h
  | true =>
    cases hs : s path with
    | none => simp [hs] at h
    | some n =>
      have hneg : ¬ ((version : Int) = -1) := by omega
      by_cases hv : (version : Int) = (n.version : Int)
      · have hv2 : version = n.version := by exact_mod_cast hv
        simp [hs, hv2] at h
        simp [hv2, h.1.symm, h.2.symm]
      · simp [hs, hv, hneg] at h

theorem record_spec (env : Env) (g : Globals) (w : World) :
    ∃ evs, (record env g w).2.trace = w.trace ++ evs ∧ (∀ e ∈ evs, e.isRequest = true) ∧
      ((record env g w).1 = .closed →
        ∃ host n1 n2, env.hostname = some host ∧ evs = recorded env g host n1 n2 ∧
          env.others 0 w.store g.lastNode = some n1 ∧
          (record env g w).2.store =
            (env.others 3 (env.others 2 ((env.others 1 (env.others 0 w.store)).put g.lastNode
              ⟨env.now ++ " " ++ host, n1.version + 1⟩))).put g.commandNode
              ⟨" ".intercalate g.command, n2.version + 1⟩) ∧
      ((record env g w).1 ≠ .closed →
        (∃ e, (record env g w).1 = .sent e) ∧
        writes evs ≠ [(g.lastNode, true), (g.commandNode, true)]) := by
  simp only [record]
  cases h1 : zkGet (env.others 0 w.store) (env.reachable 0) g.lastNode with
  | error e =>
    exact ⟨[.get g.lastNode none], by simp [sendError, Except.mapError, Except.toOption],
      by simp [Event.isRequest], by simp [sendError, Except.mapError],
      by simp [sendError, Except.mapError]⟩
  | ok n1 =>
    cases h2 : env.hostname with
    | none =>
      exact ⟨[.get g.lastNode (some n1)],
        by simp [sendError, Except.mapError, Except.toOption, osHostname, h2],
        by simp [Event.isRequest],
        by simp [sendError, Except.mapError, osHostname, h2],
        by simp [sendError, Except.mapError, osHostname, h2]⟩
    | some host =>
      cases h3 : zkSet (env.others 1 (env.others 0 w.store)) (env.reachable 1) g.lastNode
          (env.now ++ " " ++ host) (n1.version : Int) with
      | mk r3 s3 =>
        cases r3 with
        | error e =>
          exact ⟨[.get g.lastNode (some n1),
            .set g.lastNode (env.now ++ " " ++ host) n1.version none],
            by simp [sendError, Except.mapError, Except.toOption, osHostname, h2, h3],
            by simp [Event.isRequest],
            by simp [sendError, Except.mapError, osHostname, h2, h3],
            by simp [sendError, Except.mapError, osHostname, h2, h3]⟩
        | ok v3 =>
          obtain ⟨-, -, hv3, hs3⟩ := zkSet_ok _ _ _ _ _ _ _ h3
          cases h4 : zkGet (env.others 2 s3) (env.reachable 2) g.commandNode with
          | error e =>
            exact ⟨[.get g.lastNode (some n1),
              .set g.lastNode (env.now ++ " " ++ host) n1.version (some v3),
              .get g.commandNode none],
              by simp [sendError, Except.mapError, Except.toOption, osHostname, h2, h3, h4],
              by simp [Event.isRequest],
              by simp [sendError, Except.mapError, osHostname, h2, h3, h4],
              by simp [sendError, Except.mapError, osHostname, h2, h3, h4]⟩
          | ok n2 =>
            cases h5 : zkSet (env.others 3 (env.others 2 s3)) (env.reachable 3) g.commandNode
                (" ".intercalate g.command) (n2.version : Int) with
            | mk r5 s5 =>
              cases r5 with
              | error e =>
                exact ⟨[.get g.lastNode (some n1),
                  .set g.lastNode (env.now ++ " " ++ host) n1.version (some v3),
                  .get g.commandNode (some n2),
                  .set g.commandNode (" ".intercalate g.command) n2.version none],
                  by simp [sendError, Except.mapError, Except.toOption, osHostname, h2, h3, h4,
                    h5],
                  by simp [Event.isRequest],
                  by simp [sendError, Except.mapError, osHostname, h2, h3, h4, h5],
                  by simp [sendError, Except.mapError, osHostname, h2, h3, h4, h5]⟩
              | ok v5 =>
                obtain ⟨-, -, hv5, hs5⟩ := zkSet_ok _ _ _ _ _ _ _ h5
                refine ⟨recorded env g host n1 n2,
                  by simp [sendError, Except.mapError, Except.toOption, osHostname, h2, h3, h4,
                    h5, recorded, hv3, hv5],
                  by simp [recorded, Event.isRequest], ?_,
                  by simp [sendError, Except.mapError, osHostname, h2, h3, h4, h5]⟩
                intro _
                refine ⟨host, n1, n2, rfl, rfl, (zkGet_ok _ _ _ _ h1).2, ?_⟩
                simp only [sendError, Except.mapError, osHostname, h2, h3, h4, h5]
                rw [hs5, hs3]

theorem leader_spec (env : Env) (g : Globals) (w : World) (hne : g.command ≠ []) :
    ∃ evs, (leader env g w).2.trace = w.trace ++ evs ∧
      (∀ e ∈ evs, e.isRequest = true ∨ e.isExec = true) ∧
      (leader env g w).1 ≠ .panicked ∧
      ((leader env g w).1 = .closed →
        ∃ cred host n1 n2, credential env = .ok cred ∧
          env.cmdRun g.command cred = .exited 0 ∧ env.hostname = some host ∧
          evs = .exec g.command cred (.exited 0) :: recorded env g host n1 n2 ∧
          env.others 0 w.store g.lastNode = some n1 ∧
          (leader env g w).2.store =
            (env.others 3 (env.others 2 ((env.others 1 (env.others 0 w.store)).put g.lastNode
              ⟨env.now ++ " " ++ host, n1.version + 1⟩))).put g.commandNode
              ⟨" ".intercalate g.command, n2.version + 1⟩) ∧
      ((leader env g w).1 ≠ .closed →
        (∃ e, (leader env g w).1 = .sent e) ∧
        ¬ (commandRan evs = true ∧
          writes evs = [(g.lastNode, true), (g.commandNode, true)])) := by
  obtain ⟨name, rest, hcmd⟩ := List.exists_cons_of_ne_nil hne
  have hl : leader env g w =
      match credential env with
      | .error e => (.sent e, w)
      | .ok cred =>
        if env.cmdRun g.command cred = .exited 0 then
          record env g ⟨w.store, w.trace ++ [.exec g.command cred (env.cmdRun g.command cred)]⟩
        else (.sent (.run (env.cmdRun g.command cred)),
          ⟨w.store, w.trace ++ [.exec g.command cred (env.cmdRun g.command cred)]⟩) := by
    simp only [leader, hcmd, List.head?_cons, sliceFrom, sendError, RunResult.err]
    cases credential env with
    | error e => simp
    | ok cred =>
      by_cases hres : env.cmdRun (name :: rest) cred = .exited 0 <;> simp [hres]
  rw [hl]
  cases hcred : credential env with
  | error e =>
    exact ⟨[], by simp, by simp, by simp, by simp, by simp⟩
  | ok cred =>
    by_cases hres : env.cmdRun g.command cred = .exited 0
    · simp only [hres, if_true]
      obtain ⟨evs, htr, hreq, hclosed, hsent⟩ :=
        record_spec env g ⟨w.store, w.trace ++ [.exec g.command cred (.exited 0)]⟩
      refine ⟨.exec g.command cred (.exited 0) :: evs, by simp [htr], ?_, ?_, ?_, ?_⟩
      · intro e he
        rcases List.mem_cons.1 he with rfl | he
        · simp [Event.isExec]
        · exact Or.inl (hreq e he)
      · intro hp
        by_cases hc : (record env g
            ⟨w.store, w.trace ++ [.exec g.command cred (.exited 0)]⟩).1 = .closed
        · rw [hc] at hp
          exact absurd hp (by simp)
        · obtain ⟨⟨e, he⟩, -⟩ := hsent hc
          rw [he] at hp
          exact absurd hp (by simp)
      · intro hc
        obtain ⟨host, n1, n2, hh, he, hn1, hst⟩ := hclosed hc
        exact ⟨cred, host, n1, n2, rfl, hres, hh, by rw [he], hn1, hst⟩
      · intro hc
        obtain ⟨he, hw⟩ := hsent hc
        refine ⟨he, ?_⟩
        rintro ⟨-, hw2⟩
        apply hw
        simpa using hw2
    · simp only [hres, if_false]
      refine ⟨[.exec g.command cred (env.cmdRun g.command cred)], by simp,
        by simp [Event.isExec], by simp, by simp, fun _ => ⟨⟨_, rfl⟩, ?_⟩⟩
      rintro ⟨hr, -⟩
      rw [commandRan_exec_failed _ _ _ hres] at hr
      simp at hr


theorem setup_exit (env : Env) (s : Store) :
    (∀ c w, setup env s = .exit c w → c = 1) ∧
    (∀ e ∈ (setup env s).world.trace,
      e.isRequest = false ∧ e.isExec = false ∧ e.isElection = false) := by
  by_cases h1 : env.ensureOK (Join [env.chroot, "zkmutex"]) = true <;>
  by_cases h2 : env.ensureOK (Join [env.chroot, "zkmutex", env.syncGroup]) = true <;>
  by_cases h0 : afterSeparator env.args = [] <;>
  simp [setup, connect, zkHier, zkCreatePath, h1, h2, getCommand_eq, h0, Setup.world,
    Event.isRequest, Event.isExec, Event.isElection]
  by_cases h3 : env.ensureOK (Join [Join [env.chroot, "zkmutex", env.syncGroup],
    cmdHash (afterSeparator env.args)]) = true <;>
  by_cases h4 : env.ensureOK (Join [Join [Join [env.chroot, "zkmutex", env.syncGroup],
    cmdHash (afterSeparator env.args)], "last"]) = true <;>
  by_cases h5 : env.ensureOK (Join [Join [Join [env.chroot, "zkmutex", env.syncGroup],
    cmdHash (afterSeparator env.args)], "command"]) = true <;>
  by_cases h6 : env.ensureOK (Join [Join [Join [env.chroot, "zkmutex", env.syncGroup],
    cmdHash (afterSeparator env.args)], "runlock"]) = true <;>
  simp [h3, h4, h5, h6, Event.isRequest, Event.isExec, Event.isElection]

theorem run_of_exit (env : Env) (s : Store) (c : Nat) (w : World)
    (h : setup env s = .exit c w) : run env s = ⟨some 1, w⟩ := by
  have := (setup_exit env s).1 c w h
  subst this
  simp [run, zkLeaderLock, h]

theorem run_of_ready (env : Env) (s : Store) (g : Globals) (w : World)
    (h : setup env s = .ready g w) :
    ∃ evs, (run env s).world.trace = w.trace ++ .election env.electionWon :: evs ∧
      (∀ e ∈ evs, e.isRequest = true ∨ e.isExec = true) ∧ (run env s).code ≠ none ∧
      (env.electionWon = false → evs = [] ∧ (run env s).world.store = w.store ∧
        (run env s).code = some 1) := by
  obtain ⟨-, hne, -, -, -⟩ := setup_ready env s g w h
  cases hwon : env.electionWon with
  | false => exact ⟨[], by simp [run, zkLeaderLock, h, hwon], by simp, by simp [run, zkLeaderLock, h, hwon],
      fun _ => by simp [run, zkLeaderLock, h, hwon]⟩
  | true =>
    obtain ⟨evs, htr, hev, hnp, -, -⟩ :=
      leader_spec env g ⟨w.store, w.trace ++ [.election true]⟩ hne
    refine ⟨evs, ?_, hev, ?_, by simp⟩
    · cases hl : leader env g ⟨w.store, w.trace ++ [.election true]⟩ with
      | mk sig w2 =>
        rw [hl] at htr hnp
        cases sig with
        | panicked => exact absurd rfl hnp
        | closed => simpa [run, zkLeaderLock, h, hwon, hl, errorOK] using htr
        | sent e => simpa [run, zkLeaderLock, h, hwon, hl, errorOK] using htr
    · cases hl : leader env g ⟨w.store, w.trace ++ [.election true]⟩ with
      | mk sig w2 =>
        rw [hl] at hnp
        cases sig with
        | panicked => exact absurd rfl hnp
        | closed => simp [run, zkLeaderLock, h, hwon, hl, errorOK]
        | sent e => simp [run, zkLeaderLock, h, hwon, hl, errorOK]

theorem ensured_append (a b : List Event) : ensured (a ++ b) = ensured a ++ ensured b := by
  simp [ensured, List.filterMap_append]

theorem ensured_map (l : List String) (f : String → Bool) :
    ensured (.connect :: l.map (fun p => Event.ensure p (f p))) = l := by
  induction l with
  | nil => simp [ensured]
  | cons p l ih =>
    simp only [ensured, List.map_cons, List.filterMap_cons] at ih ⊢
    simpa using ih

theorem ensured_quiet (evs : List Event) (h : ∀ e ∈ evs, e.isRequest = true ∨ e.isExec = true) :
    ensured evs = [] := by
  induction evs with
  | nil => simp [ensured]
  | cons e evs ih =>
    have he := h e (by simp)
    have := ih (fun x hx => h x (by simp [hx]))
    cases e <;> simp_all [ensured, Event.isRequest, Event.isExec]

/-! ## The concrete runs -/

set_option maxRecDepth 100000

theorem quiet_ready :
    setup quietEnv emptyStore = .ready echoGlobals (setup quietEnv emptyStore).world := by
  rfl

theorem stale_ready :
    setup staleEnv staleStore = .ready echoGlobals (setup staleEnv staleStore).world := by
  rfl

theorem fail_ready :
    setup failEnv emptyStore = .ready echoGlobals (setup failEnv emptyStore).world := by
  rfl

theorem quiet_run : (run quietEnv emptyStore).code = some 0 := by
  decide

/-- The end-to-end scenario of section 8: after the run the last node holds
time and host, the command node holds `echo hi`, both at version 1. -/
theorem quiet_nodes :
    (run quietEnv emptyStore).world.store echoGlobals.lastNode
      = some ⟨"2017-06-01T12:00:00.000000001Z host1", 1⟩ ∧
    (run quietEnv emptyStore).world.store echoGlobals.commandNode = some ⟨"echo hi", 1⟩ := by
  decide

/-- Under `/apps/locks` with a failing last node, the run ends with status 1
after four ensured paths. -/
theorem deep_run :
    (run deepEnv emptyStore).code = some 1 ∧
    ensured (run deepEnv emptyStore).world.trace =
      ["/apps/locks/zkmutex", "/apps/locks/zkmutex/prod",
       "/apps/locks" ++ echoNode, "/apps/locks" ++ echoNode ++ "/last"] := by
  decide

/-- For a clean root other than `/` the six paths are the literal ones of
section 4.2. -/
theorem deep_tree :
    tree (cleanPath "/apps/locks") "prod" echoHash =
      ["/apps/locks/zkmutex", "/apps/locks/zkmutex/prod",
       "/apps/locks/zkmutex/prod/" ++ echoHash,
       "/apps/locks/zkmutex/prod/" ++ echoHash ++ "/last",
       "/apps/locks/zkmutex/prod/" ++ echoHash ++ "/command",
       "/apps/locks/zkmutex/prod/" ++ echoHash ++ "/runlock"] := by
  decide

/-! # The claims -/

/-- C1, as amended: the fingerprint is the hex encoding of the BLAKE2b-512 hash
of the concatenation of the command tokens in list order.  The writes to the
hasher carry no delimiter, so the fingerprint depends on the tokens only
through their concatenation and is not sensitive to token boundaries. -/
theorem C1_fingerprint_of_concatenation (command : List String) :
    cmdHash command = hexEncode (Blake2b.sum512 (bytes (String.join command))) := by
  rw [cmdHash_eq, bytes_join]

/-- C1, counterexample: the token lists `["ab", "c"]` and `["a", "bc"]` split
the same bytes at different places and get the same fingerprint. -/
theorem C1_boundary_counterexample : cmdHash ["ab", "c"] = cmdHash ["a", "bc"] := by
  have h : ["ab", "c"].flatMap bytes = ["a", "bc"].flatMap bytes := by decide
  rw [cmdHash_eq, cmdHash_eq, h]

/-- C3: the leader writes the last node conditioned on exactly the version its
own preceding read returned.  If another writer changed the node's version
between that read and the write, the write is rejected for its version, the
node keeps the other writer's value, nothing more is read or written, and
`run` returns 1 although the child process exited with status 0. -/
theorem C3_stale_write_rejected (env : Env) (s : Store) (g : Globals) (w : World)
    (cred : Option (Nat × Nat)) (host : String) (n n2 : Node)
    (h : setup env s = .ready g w) (hwon : env.electionWon = true)
    (hcred : credential env = .ok cred) (hrun : env.cmdRun g.command cred = .exited 0)
    (hhost : env.hostname = some host)
    (hup0 : env.reachable 0 = true) (hup1 : env.reachable 1 = true)
    (hread : env.others 0 w.store g.lastNode = some n)
    (hother : env.others 1 (env.others 0 w.store) g.lastNode = some n2)
    (hver : n2.version ≠ n.version) :
    (run env s).code = some 1 ∧
    (run env s).world.store g.lastNode = some n2 ∧
    (run env s).world.trace = w.trace ++
      [.election true, .exec g.command cred (.exited 0), .get g.lastNode (some n),
       .set g.lastNode (env.now ++ " " ++ host) n.version none] ∧
    (leader env g ⟨w.store, w.trace ++ [.election true]⟩).1 = .sent (.zk .badVersion) := by
  obtain ⟨-, hne, -, -, -⟩ := setup_ready env s g w h
  obtain ⟨name, rest, hcmd⟩ := List.exists_cons_of_ne_nil hne
  rw [hcmd] at hrun
  have hneg : ¬ ((n.version : Int) = -1) := by omega
  have hver2 : ¬ ((n.version : Int) = (n2.version : Int)) := by
    intro e
    exact hver (by exact_mod_cast e.symm)
  have hl : leader env g ⟨w.store, w.trace ++ [.election true]⟩ =
      (.sent (.zk .badVersion), ⟨env.others 1 (env.others 0 w.store),
        w.trace ++ [.election true, .exec g.command cred (.exited 0), .get g.lastNode (some n),
          .set g.lastNode (env.now ++ " " ++ host) n.version none]⟩) := by
    simp [leader, hcmd, sliceFrom, hcred, hrun, record, zkGet, zkSet, hup0, hup1, hread,
      hother, hhost, hneg, hver2, sendError, RunResult.err, osHostname, Except.mapError,
      Except.toOption]
  simp [run, zkLeaderLock, h, hwon, hl, errorOK, hother]

/-- C3, witness: the last node is read at version 2, another writer moves it to
version 3, the leader's write conditioned on version 2 is rejected. -/
theorem C3_witness :
    staleStore echoGlobals.lastNode = some ⟨"2017-05-31T08:00:00Z host0", 2⟩ ∧
    (run staleEnv staleStore).code = some 1 ∧
    (run staleEnv staleStore).world.store echoGlobals.lastNode
      = some ⟨"2017-06-01T11:59:59Z host2", 3⟩ ∧
    (run staleEnv staleStore).world.trace = (setup staleEnv staleStore).world.trace ++
      [.election true, .exec ["echo", "hi"] none (.exited 0),
       .get echoGlobals.lastNode (some ⟨"2017-05-31T08:00:00Z host0", 2⟩),
       .set echoGlobals.lastNode ("2017-06-01T12:00:00.000000001Z" ++ " " ++ "host1") 2 none] ∧
    (leader staleEnv echoGlobals ⟨(setup staleEnv staleStore).world.store,
      (setup staleEnv staleStore).world.trace ++ [.election true]⟩).1
        = .sent (.zk .badVersion) :=
  ⟨by decide, C3_stale_write_rejected staleEnv staleStore echoGlobals
    (setup staleEnv staleStore).world none "host1" ⟨"2017-05-31T08:00:00Z host0", 2⟩
    ⟨"2017-06-01T11:59:59Z host2", 3⟩ stale_ready rfl rfl rfl rfl rfl rfl (by decide)
    (by decide) (by decide)⟩

/-- C5, as amended: when the spawned command exits with a status other than 0,
the run is reported as a failure (`run` returns 1) and the recording does not
take place: `leader` returns right after the child, neither the last node nor
the command node is read or written, and the store is left as the setup left
it. -/
theorem C5_failed_command_not_recorded (env : Env) (s : Store) (g : Globals) (w : World)
    (cred : Option (Nat × Nat)) (status : Nat)
    (h : setup env s = .ready g w) (hwon : env.electionWon = true)
    (hcred : credential env = .ok cred)
    (hrun : env.cmdRun g.command cred = .exited status) (hnz : status ≠ 0) :
    (run env s).code = some 1 ∧
    (run env s).world.trace = w.trace ++
      [.election true, .exec g.command cred (.exited status)] ∧
    (run env s).world.store = w.store := by
  obtain ⟨-, hne, -, -, -⟩ := setup_ready env s g w h
  obtain ⟨name, rest, hcmd⟩ := List.exists_cons_of_ne_nil hne
  rw [hcmd] at hrun
  simp [run, zkLeaderLock, h, hwon, leader, hcmd, sliceFrom, hcred, hrun, hnz, errorOK,
    sendError, RunResult.err]

/-- C5, counterexample: the child of `echo hi` exits with status 1; the run
returns 1, its trace holds no read and no write of a node, and the last node
and the command node are still empty at version 0. -/
theorem C5_counterexample :
    failEnv.cmdRun ["echo", "hi"] none = .exited 1 ∧
    (run failEnv emptyStore).code = some 1 ∧
    (run failEnv emptyStore).world.trace.any Event.isRequest = false ∧
    (run failEnv emptyStore).world.store echoGlobals.lastNode = some ⟨"", 0⟩ ∧
    (run failEnv emptyStore).world.store echoGlobals.commandNode = some ⟨"", 0⟩ := by
  decide

/-- C5, witness: the scenario with a child that exits with status 1. -/
theorem C5_witness :
    failEnv.cmdRun echoGlobals.command none = .exited 1 ∧
    (run failEnv emptyStore).code = some 1 ∧
    (run failEnv emptyStore).world.trace = (setup failEnv emptyStore).world.trace ++
      [.election true, .exec echoGlobals.command none (.exited 1)] ∧
    (run failEnv emptyStore).world.store = (setup failEnv emptyStore).world.store :=
  ⟨rfl, C5_failed_command_not_recorded failEnv emptyStore echoGlobals
    (setup failEnv emptyStore).world none 1 fail_ready rfl rfl rfl (by decide)⟩

/-- C6: if the election signals failed, `run` returns 1 without invoking
`leader`: the trace holds no start of the command and no read or write of a
node, and after a complete setup the run ends with the election event, the
store as the setup left it. -/
theorem C6_failed_election (env : Env) (s : Store) (hfail : env.electionWon = false) :
    (run env s).code = some 1 ∧
    (∀ e ∈ (run env s).world.trace, e.isExec = false ∧ e.isRequest = false) ∧
    (∀ g w, setup env s = .ready g w →
      (run env s).world.trace = w.trace ++ [.election false] ∧
      (run env s).world.store = w.store) := by
  have hq := (setup_exit env s).2
  cases hs : setup env s with
  | panic w => exact absurd hs (setup_not_panic env s w)
  | exit c w =>
    rw [run_of_exit env s c w hs]
    rw [hs] at hq
    refine ⟨rfl, fun e he => ⟨(hq e he).2.1, (hq e he).1⟩, ?_⟩
    intro g w2 h2
    cases h2
  | ready g w =>
    rw [hs] at hq
    obtain ⟨evs, htr, -, -, hf⟩ := run_of_ready env s g w hs
    obtain ⟨rfl, hst, hcode⟩ := hf hfail
    rw [hfail] at htr
    refine ⟨hcode, ?_, ?_⟩
    · intro e he
      rw [htr] at he
      rcases List.mem_append.1 he with he | he
      · exact ⟨(hq e he).2.1, (hq e he).1⟩
      · simp at he
        subst he
        simp [Event.isExec, Event.isRequest]
    · intro g2 w2 h2
      cases h2
      exact ⟨htr, hst⟩

/-- C6, witness: the scenario with an election that signals failure. -/
theorem C6_witness :
    lostEnv.electionWon = false ∧
    (run lostEnv emptyStore).code = some 1 ∧
    (∀ e ∈ (run lostEnv emptyStore).world.trace, e.isExec = false ∧ e.isRequest = false) ∧
    (∀ g w, setup lostEnv emptyStore = .ready g w →
      (run lostEnv emptyStore).world.trace = w.trace ++ [.election false] ∧
      (run lostEnv emptyStore).world.store = w.store) :=
  ⟨rfl, C6_failed_election lostEnv emptyStore rfl⟩

/-- C7, as amended: an empty command list makes `run` return 1, but only after
the coordination service was contacted: `run` has connected and ensured
`<root>/zkmutex` and, if that succeeded, `<root>/zkmutex/<syncgroup>` before it
looks at the command; no other node is ensured, no election is started and no
command is run. -/
theorem C7_empty_command (env : Env) (s : Store) (hc : getCommand env.args = some []) :
    (run env s).code = some 1 ∧
    (run env s).world.trace = .connect ::
      .ensure (Join [env.chroot, "zkmutex"]) (env.ensureOK (Join [env.chroot, "zkmutex"])) ::
      (if env.ensureOK (Join [env.chroot, "zkmutex"]) = true then
        [.ensure (Join [env.chroot, "zkmutex", env.syncGroup])
          (env.ensureOK (Join [env.chroot, "zkmutex", env.syncGroup]))]
      else []) := by
  obtain ⟨w, hw, htr⟩ := setup_empty env s hc
  rw [run_of_exit env s 1 w hw]
  exact ⟨rfl, htr⟩

/-- C7, counterexample: without `--` in the arguments the command is empty and
`run` returns 1, yet it has connected and ensured `/zkmutex` and
`/zkmutex/prod`, a node that did not exist before. -/
theorem C7_counterexample :
    getCommand bareEnv.args = some [] ∧
    (run bareEnv emptyStore).code = some 1 ∧
    (run bareEnv emptyStore).world.trace
      = [.connect, .ensure "/zkmutex" true, .ensure "/zkmutex/prod" true] ∧
    emptyStore "/zkmutex/prod" = none ∧
    (run bareEnv emptyStore).world.store "/zkmutex/prod" = some ⟨"", 0⟩ := by
  decide

/-- C7, witness: the scenario without `--` in the arguments. -/
theorem C7_witness :
    getCommand bareEnv.args = some [] ∧
    (run bareEnv emptyStore).code = some 1 ∧
    (run bareEnv emptyStore).world.trace = .connect ::
      .ensure (Join [bareEnv.chroot, "zkmutex"])
        (bareEnv.ensureOK (Join [bareEnv.chroot, "zkmutex"])) ::
      (if bareEnv.ensureOK (Join [bareEnv.chroot, "zkmutex"]) = true then
        [.ensure (Join [bareEnv.chroot, "zkmutex", bareEnv.syncGroup])
          (bareEnv.ensureOK (Join [bareEnv.chroot, "zkmutex", bareEnv.syncGroup]))]
      else []) :=
  ⟨by decide, C7_empty_command bareEnv emptyStore (by decide)⟩

/-- C8, as amended: for every root, every syncgroup that is a node name (a
single path segment, not empty and neither `.` nor `..`) and every command that
is not empty, the paths `run` ensures are, in this order, `<root>/zkmutex`,
`<root>/zkmutex/<syncgroup>`, `<root>/zkmutex/<syncgroup>/<fingerprint>` and
its children `last`, `command` and `runlock`, formed below the cleaned root,
up to and including the first one whose ensuring fails: all six when none
fails.  When one fails, `run` returns 1 and no election is started; when none
fails the election is started.  Every path but the first is the child of a
path that stands before it. -/
theorem C8_hierarchy_top_down (env : Env) (s : Store) (cmd : List String)
    (hsg : IsName env.syncGroup)
    (hc : getCommand env.args = some cmd) (hne : cmd ≠ []) :
    ensured (run env s).world.trace
      = (tree (cleanPath env.chroot) env.syncGroup (cmdHash cmd)).take
          (((tree (cleanPath env.chroot) env.syncGroup (cmdHash cmd)).takeWhile
            env.ensureOK).length + 1) ∧
    (((tree (cleanPath env.chroot) env.syncGroup (cmdHash cmd)).takeWhile
        env.ensureOK).length < 6 →
      (run env s).code = some 1 ∧ ∀ e ∈ (run env s).world.trace, e.isElection = false) ∧
    (((tree (cleanPath env.chroot) env.syncGroup (cmdHash cmd)).takeWhile
        env.ensureOK).length = 6 →
      Event.election env.electionWon ∈ (run env s).world.trace) ∧
    (∀ j : Nat, 0 < j → j < 6 → ∃ (i : Nat) (x : String), i < j ∧ IsName x ∧
      (tree (cleanPath env.chroot) env.syncGroup (cmdHash cmd))[j]?
        = ((tree (cleanPath env.chroot) env.syncGroup (cmdHash cmd))[i]?).map
            (fun p => child p x)) := by
  rw [← nodePaths_tree env cmd hsg]
  obtain ⟨htr, hlt, heq⟩ := setup_trace env s cmd hc hne
  have hq := (setup_exit env s).2
  refine ⟨?_, ?_, ?_, ?_⟩
  · cases hs : setup env s with
    | panic w => exact absurd hs (setup_not_panic env s w)
    | exit c w =>
      rw [run_of_exit env s c w hs]
      rw [hs] at htr
      simp only [Setup.world] at htr
      rw [htr, ensured_map]
    | ready g w =>
      obtain ⟨evs, hrt, hev, -, -⟩ := run_of_ready env s g w hs
      rw [hs] at htr
      simp only [Setup.world] at htr
      rw [hrt, ensured_append, htr, ensured_map]
      have : ensured (Event.election env.electionWon :: evs) = [] := by
        have := ensured_quiet evs hev
        simpa [ensured] using this
      rw [this]
      simp
  · intro hlt2
    obtain ⟨w, hw⟩ := hlt hlt2
    rw [run_of_exit env s 1 w hw]
    rw [hw] at hq
    exact ⟨rfl, fun e he => (hq e he).2.2⟩
  · intro heq2
    obtain ⟨w, hw⟩ := heq heq2
    obtain ⟨evs, hrt, -, -, -⟩ := run_of_ready env s _ w hw
    rw [hrt]
    simp
  · rw [nodePaths_tree env cmd hsg]
    intro j h0 h6
    have hf := cmdHash_isName cmd
    rcases j with _ | _ | _ | _ | _ | _ | j
    · omega
    · exact ⟨0, env.syncGroup, by omega, hsg, by simp [tree]⟩
    · exact ⟨1, cmdHash cmd, by omega, hf, by simp [tree]⟩
    · exact ⟨2, "last", by omega, by decide, by simp [tree]⟩
    · exact ⟨2, "command", by omega, by decide, by simp [tree]⟩
    · exact ⟨2, "runlock", by omega, by decide, by simp [tree]⟩
    · omega

/-- C8, counterexample: the syncgroup `..` is a single path segment, yet under
the root `/apps` the second path `run` ensures is `/apps` itself instead of a
node below `/apps/zkmutex`: the parent of the first path is ensured after it,
and the fingerprint node is placed directly below the root. -/
theorem C8_counterexample :
    dotsEnv.syncGroup = ".." ∧ '/' ∉ dotsEnv.syncGroup.data ∧
    ensured (run dotsEnv emptyStore).world.trace =
      ["/apps/zkmutex", "/apps", "/apps/" ++ echoHash, "/apps/" ++ echoHash ++ "/last",
       "/apps/" ++ echoHash ++ "/command", "/apps/" ++ echoHash ++ "/runlock"] := by
  decide

/-- C8, witness: root `/apps/locks`, syncgroup `prod`, command `echo hi`, with
the ensuring of the last node failing. -/
theorem C8_witness :
    IsName deepEnv.syncGroup ∧ getCommand deepEnv.args = some ["echo", "hi"] ∧
    (ensured (run deepEnv emptyStore).world.trace
      = (tree (cleanPath deepEnv.chroot) deepEnv.syncGroup (cmdHash ["echo", "hi"])).take
          (((tree (cleanPath deepEnv.chroot) deepEnv.syncGroup
            (cmdHash ["echo", "hi"])).takeWhile deepEnv.ensureOK).length + 1) ∧
    (((tree (cleanPath deepEnv.chroot) deepEnv.syncGroup (cmdHash ["echo", "hi"])).takeWhile
        deepEnv.ensureOK).length < 6 →
      (run deepEnv emptyStore).code = some 1 ∧
      ∀ e ∈ (run deepEnv emptyStore).world.trace, e.isElection = false) ∧
    (((tree (cleanPath deepEnv.chroot) deepEnv.syncGroup (cmdHash ["echo", "hi"])).takeWhile
        deepEnv.ensureOK).length = 6 →
      Event.election deepEnv.electionWon ∈ (run deepEnv emptyStore).world.trace) ∧
    (∀ j : Nat, 0 < j → j < 6 → ∃ (i : Nat) (x : String), i < j ∧ IsName x ∧
      (tree (cleanPath deepEnv.chroot) deepEnv.syncGroup (cmdHash ["echo", "hi"]))[j]?
        = ((tree (cleanPath deepEnv.chroot) deepEnv.syncGroup
            (cmdHash ["echo", "hi"]))[i]?).map (fun p => child p x))) :=
  ⟨by decide, by decide,
    C8_hierarchy_top_down deepEnv emptyStore ["echo", "hi"] (by decide) (by decide)
      (by decide)⟩

/-- C9: after a fully successful run (`run` returns 0) each of the two nodes was
read once and written once, the write conditioned on the version read and
advancing it by one; the value written to the last node is the timestamp, one
space, the host name, the value written to the command node is the command
tokens joined by single spaces.  The command node holds that value at the end,
and so does the last node when no other client touched it after the leader's
write. -/
theorem C9_recorded_values (env : Env) (s : Store) (g : Globals) (w : World)
    (h : setup env s = .ready g w) (h0 : (run env s).code = some 0) :
    ∃ cred host n1 n2, env.hostname = some host ∧
      (run env s).world.trace = w.trace ++
        .election true :: .exec g.command cred (.exited 0) :: recorded env g host n1 n2 ∧
      writes (run env s).world.trace = [(g.lastNode, true), (g.commandNode, true)] ∧
      (run env s).world.store g.commandNode
        = some ⟨" ".intercalate g.command, n2.version + 1⟩ ∧
      ((∀ st, env.others 2 st g.lastNode = st g.lastNode ∧
          env.others 3 st g.lastNode = st g.lastNode) →
        (run env s).world.store g.lastNode
          = some ⟨env.now ++ " " ++ host, n1.version + 1⟩) := by
  obtain ⟨hW, -, -, -⟩ := setup_quiet env s g w h
  obtain ⟨-, hne, hL, hC, -⟩ := setup_ready env s g w h
  have hLC : g.lastNode ≠ g.commandNode := by
    rw [hL, hC]
    exact Join_last_ne_command _
  cases hwon : env.electionWon with
  | false => simp [run, zkLeaderLock, h, hwon] at h0
  | true =>
    obtain ⟨evs, htr, -, hnp, hclosed, -⟩ :=
      leader_spec env g ⟨w.store, w.trace ++ [.election true]⟩ hne
    cases hl : leader env g ⟨w.store, w.trace ++ [.election true]⟩ with
    | mk sig w2 =>
      rw [hl] at htr hnp hclosed
      simp only at htr hnp hclosed
      cases sig with
      | panicked => exact absurd rfl hnp
      | sent e => simp [run, zkLeaderLock, h, hwon, hl, errorOK] at h0
      | closed =>
        obtain ⟨cred, host, n1, n2, -, -, hh, he, -, hst⟩ := hclosed rfl
        have hrun : run env s = ⟨some 0, w2⟩ := by
          simp [run, zkLeaderLock, h, hwon, hl, errorOK]
        refine ⟨cred, host, n1, n2, hh, ?_, ?_, ?_, ?_⟩
        · rw [hrun, htr, he]
          simp
        · rw [hrun, htr, he]
          simp [hW, recorded]
        · rw [hrun, hst]
          simp [Store.put]
        · intro hq
          rw [hrun, hst]
          simp [Store.put, hLC, (hq _).1, (hq _).2]

/-- C9, witness: the end-to-end scenario `echo hi`, where the command node ends
with the value `echo hi`. -/
theorem C9_witness :
    (run quietEnv emptyStore).code = some 0 ∧
    " ".intercalate echoGlobals.command = "echo hi" ∧
    ∃ cred host n1 n2, quietEnv.hostname = some host ∧
      (run quietEnv emptyStore).world.trace = (setup quietEnv emptyStore).world.trace ++
        .election true :: .exec echoGlobals.command cred (.exited 0) ::
          recorded quietEnv echoGlobals host n1 n2 ∧
      writes (run quietEnv emptyStore).world.trace
        = [(echoGlobals.lastNode, true), (echoGlobals.commandNode, true)] ∧
      (run quietEnv emptyStore).world.store echoGlobals.commandNode
        = some ⟨" ".intercalate echoGlobals.command, n2.version + 1⟩ ∧
      ((∀ st, quietEnv.others 2 st echoGlobals.lastNode = st echoGlobals.lastNode ∧
          quietEnv.others 3 st echoGlobals.lastNode = st echoGlobals.lastNode) →
        (run quietEnv emptyStore).world.store echoGlobals.lastNode
          = some ⟨quietEnv.now ++ " " ++ host, n1.version + 1⟩) :=
  ⟨quiet_run, by decide, C9_recorded_values quietEnv emptyStore echoGlobals
    (setup quietEnv emptyStore).world quiet_ready quiet_run⟩

/-- C10: for every argument list the command is the sequence of arguments after
the first `--`, unchanged and in order, later `--` tokens included; it is
empty when no argument is `--` and when the `--` that separates, the first one,
is the last argument, and in no other case.  The slice `os.Args[i+1:]` is
always in range (the loop never panics), and `leader` evaluates `command[0]`
only for a command that is not empty: `run` never panics. -/
theorem C10_command_after_separator (env : Env) (s : Store) :
    (∀ pre post : List String, "--" ∉ pre → getCommand (pre ++ "--" :: post) = some post) ∧
    (∀ args : List String, "--" ∉ args → getCommand args = some []) ∧
    (∀ pre : List String, "--" ∉ pre → getCommand (pre ++ ["--"]) = some []) ∧
    (∀ args : List String, getCommand args = some [] →
      "--" ∉ args ∨ ∃ pre, "--" ∉ pre ∧ args = pre ++ ["--"]) ∧
    (∀ args : List String, getCommand args ≠ none) ∧
    (∀ g w, setup env s = .ready g w →
      getCommand env.args = some g.command ∧ g.command ≠ [] ∧
      (leader env g ⟨w.store, w.trace ++ [.election true]⟩).1 ≠ .panicked) ∧
    (run env s).code ≠ none := by
  refine ⟨?_, ?_, ?_, ?_, ?_, ?_, ?_⟩
  · intro pre post h
    rw [getCommand_eq, afterSeparator_append pre post h]
  · intro args h
    rw [getCommand_eq, afterSeparator_none args h]
  · intro pre h
    rw [getCommand_eq, afterSeparator_append pre [] h]
  · intro args h
    by_cases hm : "--" ∈ args
    · obtain ⟨pre, post, hpre, rfl⟩ := first_separator args hm
      rw [getCommand_eq, afterSeparator_append pre post hpre] at h
      injection h with h
      subst h
      exact Or.inr ⟨pre, hpre, rfl⟩
    · exact Or.inl hm
  · intro args
    rw [getCommand_eq]
    simp
  · intro g w h
    obtain ⟨hc, hne, -, -, -⟩ := setup_ready env s g w h
    obtain ⟨evs, -, -, hnp, -, -⟩ :=
      leader_spec env g ⟨w.store, w.trace ++ [.election true]⟩ hne
    exact ⟨hc, hne, hnp⟩
  · cases hs : setup env s with
    | panic w => exact absurd hs (setup_not_panic env s w)
    | exit c w =>
      rw [run_of_exit env s c w hs]
      simp
    | ready g w =>
      obtain ⟨evs, -, -, hcode, -⟩ := run_of_ready env s g w hs
      exact hcode

end ZkMutex
